import Mathlib

/-!
Verification development for the WireGuard allowed-ips subsystem.

The repository ships the selftest of the allowed-ips longest-prefix-match
table (src/selftest/allowedips.c).  That file contains, in full, the
brute-force reference implementation (the horrible_allowedips linked list)
that the randomized differential test compares the production trie against,
together with the static test scenarios.  The production trie itself
(wg_allowedips insert / lookup / remove_by_peer / walk_by_peer) is not part
of the sources, so it is modelled here from the specification, section 4
(compressed binary trie, masking on entry, the four insertion cases, the
last-matching-node-wins descent, peer removal with structural collapsing).

Addresses of one family are embedded as big-endian bit lists (List Bool) of
a fixed width w (32 for v4, 128 for v6); machine peers are identified by
natural numbers.
-/

set_option maxHeartbeats 1000000
set_option maxRecDepth 8000

namespace AIPS

/-- an address of one family: big-endian list of bits, length 32 or 128 -/
abbrev Addr := List Bool

/-- peers are external reference-counted objects; we only need identity -/
abbrev Peer := Nat

/-- zero all bits of an address from position c on (masking to a cidr) -/
def maskAddr (b : Addr) (c : Nat) : Addr :=
  b.take c ++ List.replicate (b.length - c) false

/-- length of the longest common bit-prefix of two addresses -/
def firstDiff : Addr → Addr → Nat
  | [], _ => 0
  | _, [] => 0
  | x :: xs, y :: ys => if x = y then firstDiff xs ys + 1 else 0

/-- the bit of an address at position i (false beyond the end) -/
def bitAt (b : Addr) (i : Nat) : Bool := b.getD i false

theorem bitAt_eq (b : Addr) (i : Nat) : bitAt b i = b.getD i false := rfl

/-- one insertion request: raw (possibly unmasked) address bits, prefix
length, owning peer -/
structure Entry where
  bits : Addr
  cidr : Nat
  peer : Peer
deriving DecidableEq, Repr

/-- Modelled from the spec: a node of the compressed binary trie of one
family (spec section 3): own masked prefix bits, its cidr, the owning peer
(none for a pure structural fork), and the two child subtrees.  The
production structure (struct allowedips_node) is not among the sources. -/
inductive Node where
  | mk (bits : Addr) (cidr : Nat) (peer : Option Peer) (bit0 bit1 : Option Node)

def Node.bits : Node → Addr
  | .mk b _ _ _ _ => b

def Node.cidr : Node → Nat
  | .mk _ c _ _ _ => c

def Node.peer : Node → Option Peer
  | .mk _ _ q _ _ => q

/-- Modelled from the spec: longest-prefix-match lookup (spec section 4.3).
Descend while the query address agrees with the node prefix on the first
cidr bits, choosing the child by the query bit at position cidr; the
deepest owned matching node wins.  Returns the matched cidr together with
the owner.  The production lookup is not among the sources. -/
def lookupB : Option Node → Addr → Option (Nat × Peer)
  | none, _ => none
  | some (.mk b c q z o), key =>
    if key.take c = b.take c then
      match (if bitAt key c then lookupB o key else lookupB z key) with
      | some r => some r
      | none => Option.map (fun u => (c, u)) q
    else none

/-- the public lookup: owner of the most specific matching prefix -/
def lookup (t : Option Node) (key : Addr) : Option Peer :=
  Option.map (fun r => r.2) (lookupB t key)

/-- Modelled from the spec: insertion of an already-masked candidate prefix
(spec section 4.2).  The four cases on the capped common-prefix length:
exact match replaces the owner in place; a broader candidate becomes the
parent; a longer candidate descends (or fills the empty child slot); true
mid-bit divergence materializes an ownerless fork at the divergence depth.
The production insert is not among the sources. -/
def ins : Option Node → Addr → Nat → Peer → Option Node
  | none, cand, cidr, p => some (.mk cand cidr (some p) none none)
  | some (.mk b c q z o), cand, cidr, p =>
    let common := min (min c cidr) (firstDiff b cand)
    if common = cidr then
      if common = c then
        some (.mk b c (some p) z o)
      else
        if bitAt b cidr then
          some (.mk cand cidr (some p) none (some (.mk b c q z o)))
        else
          some (.mk cand cidr (some p) (some (.mk b c q z o)) none)
    else
      if common = c then
        if bitAt cand c then
          some (.mk b c q z (ins o cand cidr p))
        else
          some (.mk b c q (ins z cand cidr p) o)
      else
        if bitAt cand common then
          some (.mk (maskAddr cand common) common none (some (.mk b c q z o))
            (some (.mk cand cidr (some p) none none)))
        else
          some (.mk (maskAddr cand common) common none
            (some (.mk cand cidr (some p) none none)) (some (.mk b c q z o)))

/-- public insert: the raw address is masked to the cidr before any
comparison or storage (spec sections 4.2 and 7) -/
def insertT (t : Option Node) (bits : Addr) (cidr : Nat) (p : Peer) : Option Node :=
  ins t (maskAddr bits cidr) cidr p

/-- build a trie from a sequence of insertions -/
def buildT (es : List Entry) : Option Node :=
  es.foldl (fun t e => insertT t e.bits e.cidr e.peer) none

/-- the entry a node itself contributes: one if owned, none if structural -/
def ownEntry (b : Addr) (c : Nat) : Option Peer → List Entry
  | some p => [⟨b, c, p⟩]
  | none => []

/-- all owned entries of the trie, in preorder -/
def entriesOpt : Option Node → List Entry
  | none => []
  | some (.mk b c q z o) => ownEntry b c q ++ (entriesOpt z ++ entriesOpt o)

/-- the (bits, cidr) keys of all nodes, owned or structural, in preorder -/
def nodesList : Option Node → List (Addr × Nat)
  | none => []
  | some (.mk b c _ z o) => (b, c) :: (nodesList z ++ nodesList o)

/-- number of nodes in the trie -/
def countNodes : Option Node → Nat
  | none => 0
  | some (.mk _ _ _ z o) => 1 + countNodes z + countNodes o

/-- Modelled from the spec: walk over all nodes owned by one peer (spec
section 4.5), yielding the stored masked prefix and cidr of each.  The
production walk_by_peer iterates the intrusive per-peer membership list,
which is not among the sources; the spec requires that it visit exactly
the currently owned (address, cidr) pairs, each once. -/
def walkByPeer : Option Node → Peer → List (Addr × Nat)
  | none, _ => []
  | some (.mk b c q z o), p =>
    (if q = some p then [(b, c)] else []) ++ (walkByPeer z p ++ walkByPeer o p)

/-- Modelled from the spec: removal of all entries of one peer (spec
section 4.4).  An affected node loses its owner; an ownerless node with at
most one remaining child is spliced out (structural collapsing), an
ownerless node with two children persists as a pure fork.  The production
remove_by_peer is not among the sources. -/
def removeByPeer (p : Peer) : Option Node → Option Node
  | none => none
  | some (.mk b c q z o) =>
    let z1 := removeByPeer p z
    let o1 := removeByPeer p o
    let q1 := if q = some p then none else q
    match q1 with
    | some r => some (.mk b c (some r) z1 o1)
    | none =>
      match z1, o1 with
      | none, none => none
      | some m, none => some m
      | none, some m => some m
      | some m0, some m1 => some (.mk b c none (some m0) (some m1))

/-- Modelled from the spec: insertion with explicit allocation outcomes
(spec section 7).  The flag a1 stands for the allocation of the new entry
node, a2 for the allocation of the fork node; replacement allocates
nothing.  On failure the result flag is false and the returned trie is the
untouched input — a failed insert must not partially link a node. -/
def insE (a1 a2 : Bool) : Option Node → Addr → Nat → Peer → Bool × Option Node
  | none, cand, cidr, p =>
    if a1 then (true, some (.mk cand cidr (some p) none none)) else (false, none)
  | some (.mk b c q z o), cand, cidr, p =>
    let common := min (min c cidr) (firstDiff b cand)
    if common = cidr then
      if common = c then
        (true, some (.mk b c (some p) z o))
      else if a1 then
        (true,
          if bitAt b cidr then
            some (.mk cand cidr (some p) none (some (.mk b c q z o)))
          else
            some (.mk cand cidr (some p) (some (.mk b c q z o)) none))
      else (false, some (.mk b c q z o))
    else
      if common = c then
        if bitAt cand c then
          (let r := insE a1 a2 o cand cidr p; (r.1, some (.mk b c q z r.2)))
        else
          (let r := insE a1 a2 z cand cidr p; (r.1, some (.mk b c q r.2 o)))
      else
        if a1 && a2 then
          (true,
            if bitAt cand common then
              some (.mk (maskAddr cand common) common none (some (.mk b c q z o))
                (some (.mk cand cidr (some p) none none)))
            else
              some (.mk (maskAddr cand common) common none
                (some (.mk cand cidr (some p) none none)) (some (.mk b c q z o))))
        else (false, some (.mk b c q z o))

/-! ## The brute-force reference implementation from the selftest

The horrible_allowedips structure of src/selftest/allowedips.c: a linked
list of (masked ip, mask, value) records kept ordered by decreasing mask
popcount, answering lookups by the first match.  One Lean list per family;
the ip_version tag of the C union disappears because the C lookup filters
on it before anything else. -/

/-- a record of the horrible list: masked ip, mask and owner value
(struct horrible_allowedips_node, the ip_version dispatch resolved) -/
structure HNode where
  ip : Addr
  mask : Addr
  value : Peer
deriving DecidableEq, Repr

/-- horrible_cidr_to_mask: the first cidr bits set -/
def maskOf (w c : Nat) : Addr :=
  List.replicate (min c w) true ++ List.replicate (w - c) false

/-- bitwise and of two addresses -/
def hAnd (x y : Addr) : Addr := List.zipWith and x y

/-- horrible_mask_to_cidr: popcount of the mask -/
def hCidr (n : HNode) : Nat := n.mask.count true

/-- horrible_match_v4 and _v6: masked query equals the stored masked ip -/
def hMatch (n : HNode) (key : Addr) : Bool := hAnd key n.mask == n.ip

/-- horrible_insert_ordered: replace the record on an exact (mask, ip)
duplicate, otherwise insert before the first record of smaller or equal
popcount, else append -/
def hIns (node : HNode) : List HNode → List HNode
  | [] => [node]
  | other :: rest =>
    if other.mask = node.mask ∧ other.ip = node.ip then
      { other with value := node.value } :: rest
    else if hCidr other ≤ hCidr node then
      node :: other :: rest
    else
      other :: hIns node rest

/-- horrible_allowedips_insert for one family: build the record (mask from
the cidr, ip masked by horrible_mask_self) and insert it in order -/
def hInsert (w : Nat) (l : List HNode) (e : Entry) : List HNode :=
  hIns ⟨hAnd e.bits (maskOf w e.cidr), maskOf w e.cidr, e.peer⟩ l

/-- the horrible table after a sequence of insertions -/
def hBuild (w : Nat) (es : List Entry) : List HNode :=
  es.foldl (hInsert w) []

/-- horrible_allowedips_lookup with the matched popcount kept for proofs -/
def hLookupB : List HNode → Addr → Option (Nat × Peer)
  | [], _ => none
  | n :: rest, key =>
    if hMatch n key then some (hCidr n, n.value) else hLookupB rest key

/-- horrible_allowedips_lookup for one family: value of the first matching
record -/
def hLookup (l : List HNode) (key : Addr) : Option Peer :=
  Option.map (fun r => r.2) (hLookupB l key)

/-! ## The extensional specification: most specific match over the
insertion sequence -/

/-- one step of the brute-force scan: an entry takes over when its masked
prefix contains the key and its cidr is at least the best so far (so a
replacement of the same prefix keeps the later owner) -/
def stepBest (key : Addr) (best : Option (Nat × Peer)) (e : Entry) : Option (Nat × Peer) :=
  if key.take e.cidr = e.bits.take e.cidr then
    match best with
    | none => some (e.cidr, e.peer)
    | some (c, u) => if c ≤ e.cidr then some (e.cidr, e.peer) else some (c, u)
  else best

/-- the most specific previously inserted matching prefix, scanning the
whole insertion sequence -/
def bruteBest (es : List Entry) (key : Addr) : Option (Nat × Peer) :=
  es.foldl (stepBest key) none

/-! ## Concrete addresses -/

/-- big-endian bits of a natural number, w bits wide -/
def natBits (w n : Nat) : Addr :=
  (List.range w).map (fun i => n.testBit (w - 1 - i))

/-- an IPv4 address from its four dotted-quad bytes -/
def ip4 (a b c d : Nat) : Addr :=
  natBits 32 (((a * 256 + b) * 256 + c) * 256 + d)

/-- an IPv6 address from its four 32-bit words -/
def ip6 (a b c d : Nat) : Addr :=
  natBits 128 (((a * 4294967296 + b) * 4294967296 + c) * 4294967296 + d)

/-! ## Fuel-bounded evaluators

The recursive trie functions are compiled by well-founded recursion, so
they do not reduce definitionally; these fuel-bounded mirrors recurse
structurally on the fuel and therefore evaluate by decide.  Bridging
lemmas below show that a successful fuel-bounded run equals the original
function, so every concrete fact established through them is a fact about
the original definitions. -/

def insF : Nat → Option Node → Addr → Nat → Peer → Option (Option Node)
  | 0, _, _, _, _ => none
  | _ + 1, none, cand, cidr, p => some (some (.mk cand cidr (some p) none none))
  | fuel + 1, some (.mk b c q z o), cand, cidr, p =>
    let common := min (min c cidr) (firstDiff b cand)
    if common = cidr then
      if common = c then
        some (some (.mk b c (some p) z o))
      else
        if bitAt b cidr then
          some (some (.mk cand cidr (some p) none (some (.mk b c q z o))))
        else
          some (some (.mk cand cidr (some p) (some (.mk b c q z o)) none))
    else
      if common = c then
        if bitAt cand c then
          match insF fuel o cand cidr p with
          | some r => some (some (.mk b c q z r))
          | none => none
        else
          match insF fuel z cand cidr p with
          | some r => some (some (.mk b c q r o))
          | none => none
      else
        if bitAt cand common then
          some (some (.mk (maskAddr cand common) common none (some (.mk b c q z o))
            (some (.mk cand cidr (some p) none none))))
        else
          some (some (.mk (maskAddr cand common) common none
            (some (.mk cand cidr (some p) none none)) (some (.mk b c q z o))))

def buildF (fuel : Nat) (es : List Entry) : Option (Option Node) :=
  es.foldl
    (fun acc e =>
      match acc with
      | none => none
      | some t => insF fuel t (maskAddr e.bits e.cidr) e.cidr e.peer)
    (some none)

def entriesF : Nat → Option Node → Option (List Entry)
  | 0, _ => none
  | _ + 1, none => some []
  | fuel + 1, some (.mk b c q z o) =>
    match entriesF fuel z, entriesF fuel o with
    | some lz, some lo => some (ownEntry b c q ++ (lz ++ lo))
    | _, _ => none

def walkF : Nat → Option Node → Peer → Option (List (Addr × Nat))
  | 0, _, _ => none
  | _ + 1, none, _ => some []
  | fuel + 1, some (.mk b c q z o), p =>
    match walkF fuel z p, walkF fuel o p with
    | some lz, some lo => some ((if q = some p then [(b, c)] else []) ++ (lz ++ lo))
    | _, _ => none

/-- evaluator for the entry list of a built trie -/
def entriesB (fuel : Nat) (es : List Entry) : Option (List Entry) :=
  match buildF fuel es with
  | some t => entriesF fuel t
  | none => none

/-- evaluator for the walk of a built trie -/
def walkB (fuel : Nat) (es : List Entry) (p : Peer) : Option (List (Addr × Nat)) :=
  match buildF fuel es with
  | some t => walkF fuel t p
  | none => none

/-! ## Concrete scenarios from the selftest -/

/-- the example scenario of spec section 8 (selftest lines 575-580 and
611-616), peers A B C D as 1 2 3 4 -/
def c2Entries : List Entry :=
  [⟨ip4 10 0 0 0, 25, 1⟩, ⟨ip4 10 0 0 128, 25, 2⟩, ⟨ip4 10 1 0 0, 30, 1⟩,
   ⟨ip4 10 1 0 4, 30, 2⟩, ⟨ip4 10 1 0 8, 29, 3⟩, ⟨ip4 10 1 0 16, 29, 4⟩]

/-- selftest line 557: 192.95.5.64/27 owned by peer D = 4 -/
def c3Entries : List Entry := [⟨ip4 192 95 5 64, 27, 4⟩]

/-- a small table for exercising removal of peer 1 -/
def c4Entries : List Entry :=
  [⟨ip4 192 168 0 0, 16, 1⟩, ⟨ip4 192 168 0 0, 24, 1⟩, ⟨ip4 10 0 0 0, 8, 2⟩]

/-- a default route next to one specific route (selftest line 562) -/
def c6Entries : List Entry := [⟨ip4 0 0 0 0, 0, 5⟩, ⟨ip4 10 0 0 0, 8, 1⟩]

/-- the v6 part of the walk scenario (selftest lines 649-655), peer a = 1 -/
def walkEntries : List Entry :=
  [⟨ip6 0x26075300 0x60006b00 0 0xc05f0543, 128, 1⟩,
   ⟨ip6 0x26075300 0x6d8a6bf8 0xdab1f1df 0xc05f1523, 83, 1⟩,
   ⟨ip6 0x26075300 0x6d8a6bf8 0xdab1f1df 0xc05f1523, 21, 1⟩]

/-! ## Bit-list toolkit -/

theorem take_eq_mono {a b : Addr} {c : Nat} (h : a.take c = b.take c) {j : Nat} (hj : j ≤ c) :
    a.take j = b.take j := by
  have h1 : (a.take c).take j = (b.take c).take j := by rw [h]
  simpa [List.take_take, Nat.min_eq_left hj] using h1

theorem getD_of_take_eq {a b : Addr} {c : Nat} (h : a.take c = b.take c) {j : Nat} (hj : j < c) :
    a.getD j false = b.getD j false := by
  have h1 : (a.take c)[j]? = (b.take c)[j]? := by rw [h]
  rw [List.getElem?_take, List.getElem?_take, if_pos hj, if_pos hj] at h1
  rw [List.getD_eq_getElem?_getD, List.getD_eq_getElem?_getD, h1]

theorem fd_nil_left (b : Addr) : firstDiff [] b = 0 := by simp [firstDiff]

theorem fd_nil_right (a : Addr) : firstDiff a [] = 0 := by
  cases a <;> simp [firstDiff]

theorem fd_cons_eq (x : Bool) (xs ys : Addr) :
    firstDiff (x :: xs) (x :: ys) = firstDiff xs ys + 1 := by
  simp [firstDiff]

theorem fd_cons_ne {x y : Bool} (h : ¬ x = y) (xs ys : Addr) :
    firstDiff (x :: xs) (y :: ys) = 0 := by
  simp [firstDiff, h]

theorem fd_le_left : ∀ a b : Addr, firstDiff a b ≤ a.length
  | [], b => by simp [fd_nil_left]
  | _ :: _, [] => by simp [fd_nil_right]
  | x :: xs, y :: ys => by
    by_cases h : x = y
    · subst h
      rw [fd_cons_eq]
      simpa using Nat.succ_le_succ (fd_le_left xs ys)
    · simp [fd_cons_ne h]

theorem fd_le_right : ∀ a b : Addr, firstDiff a b ≤ b.length
  | [], b => by simp [fd_nil_left]
  | _ :: _, [] => by simp [fd_nil_right]
  | x :: xs, y :: ys => by
    by_cases h : x = y
    · subst h
      rw [fd_cons_eq]
      simpa using Nat.succ_le_succ (fd_le_right xs ys)
    · simp [fd_cons_ne h]

theorem take_fd : ∀ a b : Addr, a.take (firstDiff a b) = b.take (firstDiff a b)
  | [], b => by simp [fd_nil_left]
  | _ :: _, [] => by simp [fd_nil_right]
  | x :: xs, y :: ys => by
    by_cases h : x = y
    · subst h
      rw [fd_cons_eq, List.take_succ_cons, List.take_succ_cons, take_fd xs ys]
    · simp [fd_cons_ne h]

theorem fd_ge : ∀ (a b : Addr) (c : Nat), a.take c = b.take c → c ≤ a.length → c ≤ firstDiff a b
  | _, _, 0, _, _ => Nat.zero_le _
  | [], _, c + 1, _, hl => by simp at hl
  | _ :: _, [], c + 1, h, _ => by simp [List.take_succ_cons] at h
  | x :: xs, y :: ys, c + 1, h, hl => by
    simp only [List.take_succ_cons, List.cons.injEq] at h
    obtain ⟨rfl, h2⟩ := h
    have := fd_ge xs ys c h2 (by simpa using Nat.le_of_succ_le_succ hl)
    rw [fd_cons_eq]
    omega

theorem fd_ne : ∀ a b : Addr, firstDiff a b < a.length → firstDiff a b < b.length →
    ¬ a.getD (firstDiff a b) false = b.getD (firstDiff a b) false
  | [], _, h, _ => absurd h (by simp [fd_nil_left])
  | _ :: _, [], _, h => absurd h (by simp [fd_nil_right])
  | x :: xs, y :: ys, h1, h2 => by
    by_cases h : x = y
    · subst h
      rw [fd_cons_eq] at h1 h2 ⊢
      simp only [List.length_cons, Nat.add_lt_add_iff_right] at h1 h2
      rw [List.getD_cons_succ, List.getD_cons_succ]
      exact fd_ne xs ys h1 h2
    · rw [fd_cons_ne h]
      simpa [List.getD_cons_zero] using h

theorem fd_self : ∀ a : Addr, firstDiff a a = a.length
  | [] => by simp [fd_nil_left]
  | x :: xs => by rw [fd_cons_eq, fd_self xs, List.length_cons]

theorem fd_succ : ∀ (a b : Addr) (j : Nat), a.take j = b.take j →
    a.getD j false = b.getD j false → j < a.length → j < b.length →
    j + 1 ≤ firstDiff a b
  | [], _, j, _, _, hl, _ => absurd hl (by simp)
  | _ :: _, [], j, _, _, _, hl => absurd hl (by simp)
  | x :: xs, y :: ys, 0, _, hg, _, _ => by
    simp only [List.getD_cons_zero] at hg
    subst hg
    rw [fd_cons_eq]
    omega
  | x :: xs, y :: ys, j + 1, h, hg, hl1, hl2 => by
    simp only [List.take_succ_cons, List.cons.injEq] at h
    obtain ⟨rfl, h2⟩ := h
    simp only [List.getD_cons_succ] at hg
    have := fd_succ xs ys j h2 hg (by simpa using hl1) (by simpa using hl2)
    rw [fd_cons_eq]
    omega

theorem maskAddr_nil (c : Nat) : maskAddr [] c = [] := by simp [maskAddr]

theorem maskAddr_zero (b : Addr) : maskAddr b 0 = List.replicate b.length false := by
  simp [maskAddr]

theorem maskAddr_cons (x : Bool) (xs : Addr) (c : Nat) :
    maskAddr (x :: xs) (c + 1) = x :: maskAddr xs c := by
  simp [maskAddr, List.take_succ_cons]

theorem maskAddr_length : ∀ (b : Addr) (c : Nat), (maskAddr b c).length = b.length
  | [], c => by simp [maskAddr]
  | x :: xs, 0 => by simp [maskAddr_zero]
  | x :: xs, c + 1 => by simp [maskAddr_cons, maskAddr_length xs c]

theorem maskAddr_take {b : Addr} {c : Nat} (hc : c ≤ b.length) {j : Nat} (hj : j ≤ c) :
    (maskAddr b c).take j = b.take j := by
  rw [maskAddr, List.take_append_of_le_length (by simp [List.length_take]; omega),
    List.take_take, Nat.min_eq_left hj]

theorem maskAddr_getD_lt {b : Addr} {c : Nat} (hc : c ≤ b.length) {j : Nat} (hj : j < c) :
    (maskAddr b c).getD j false = b.getD j false :=
  getD_of_take_eq (maskAddr_take hc (Nat.le_refl c)) hj

theorem getD_replicate_false : ∀ (n j : Nat), (List.replicate n false).getD j false = false
  | 0, _ => rfl
  | n + 1, 0 => rfl
  | n + 1, j + 1 => by
    rw [List.replicate_succ, List.getD_cons_succ]
    exact getD_replicate_false n j

theorem maskAddr_getD_ge : ∀ (b : Addr) (c j : Nat), c ≤ j →
    (maskAddr b c).getD j false = false
  | [], c, j, _ => by simp [maskAddr_nil]
  | x :: xs, 0, j, _ => by
    rw [maskAddr_zero]
    exact getD_replicate_false _ _
  | x :: xs, c + 1, j + 1, hj => by
    rw [maskAddr_cons, List.getD_cons_succ]
    exact maskAddr_getD_ge xs c j (Nat.le_of_succ_le_succ hj)

theorem maskAddr_idem : ∀ (b : Addr) (c : Nat), maskAddr (maskAddr b c) c = maskAddr b c
  | [], c => by simp [maskAddr_nil]
  | x :: xs, 0 => by
    rw [maskAddr_zero]
    have h1 : maskAddr (List.replicate (x :: xs).length false) 0 =
        List.replicate (List.replicate (x :: xs).length false).length false := maskAddr_zero _
    simpa using h1
  | x :: xs, c + 1 => by
    rw [maskAddr_cons, maskAddr_cons, maskAddr_idem xs c]

theorem maskAddr_eq_iff {a b : Addr} (hl : a.length = b.length) (c : Nat) :
    maskAddr a c = maskAddr b c ↔ a.take c = b.take c := by
  constructor
  · intro h
    have := List.append_inj h (by simp [List.length_take, hl])
    exact this.1
  · intro h
    rw [maskAddr, maskAddr, h, hl]

theorem hAnd_replicate_false : ∀ x : Addr, ∀ n : Nat,
    hAnd x (List.replicate n false) = List.replicate (min x.length n) false
  | [], n => by simp [hAnd]
  | x :: xs, 0 => by simp [hAnd]
  | x :: xs, n + 1 => by
    simp only [hAnd, List.replicate, List.zipWith_cons_cons, Bool.and_false]
    rw [show List.zipWith and xs (List.replicate n false) = hAnd xs (List.replicate n false) from rfl,
      hAnd_replicate_false xs n]
    simp [List.replicate, Nat.succ_min_succ]

theorem maskOf_zero (w : Nat) : maskOf w 0 = List.replicate w false := by
  simp [maskOf]

theorem maskOf_succ (w c : Nat) : maskOf (w + 1) (c + 1) = true :: maskOf w c := by
  simp [maskOf, Nat.succ_min_succ, List.replicate_succ, Nat.succ_sub_succ]

theorem hAnd_maskOf : ∀ (x : Addr) (c : Nat), c ≤ x.length →
    hAnd x (maskOf x.length c) = maskAddr x c
  | [], c, hc => by
    simp only [List.length_nil, Nat.le_zero] at hc
    subst hc
    simp [hAnd, maskOf, maskAddr]
  | x :: xs, 0, _ => by
    rw [maskOf_zero, hAnd_replicate_false, maskAddr_zero]
    simp
  | x :: xs, c + 1, hc => by
    have hc1 : c ≤ xs.length := by simpa using Nat.le_of_succ_le_succ hc
    rw [List.length_cons, maskOf_succ]
    simp only [hAnd, List.zipWith_cons_cons, Bool.and_true]
    rw [show List.zipWith and xs (maskOf xs.length c) = hAnd xs (maskOf xs.length c) from rfl,
      hAnd_maskOf xs c hc1, maskAddr_cons]

theorem count_maskOf {w c : Nat} (hc : c ≤ w) : (maskOf w c).count true = c := by
  rw [maskOf, List.count_append, List.count_replicate, List.count_replicate]
  simp [Nat.min_eq_left hc]

theorem maskOf_length (w c : Nat) : (maskOf w c).length = w := by
  simp only [maskOf, List.length_append, List.length_replicate]
  omega

/-! ## Well-formedness of the trie -/

/-- conditions a child subtree must satisfy relative to a parent with
prefix b, cidr c, on the child slot i: strictly more specific, agreeing
with the parent prefix, carrying bit i right after it -/
def childOK (b : Addr) (c : Nat) (i : Bool) : Option Node → Prop
  | none => True
  | some m => c < m.cidr ∧ m.bits.take c = b.take c ∧ bitAt m.bits c = i

/-- well-formedness of one family trie of width w (the invariants of spec
section 3): every node carries a masked full-width prefix with a cidr
within the width, and both children satisfy childOK on their slots -/
inductive WF (w : Nat) : Node → Prop
  | mk {b : Addr} {c : Nat} {q : Option Peer} {z o : Option Node} :
      b.length = w → c ≤ w → maskAddr b c = b →
      childOK b c false z → childOK b c true o →
      (∀ m, z = some m → WF w m) → (∀ m, o = some m → WF w m) →
      WF w (.mk b c q z o)

def WFopt (w : Nat) : Option Node → Prop
  | none => True
  | some n => WF w n

theorem wfopt_of (w : Nat) : ∀ z : Option Node, (∀ m, z = some m → WF w m) → WFopt w z
  | none, _ => trivial
  | some m, h => h m rfl

theorem wfopt_some {w : Nat} {m : Node} (h : WFopt w (some m)) : WF w m := h

/-- induction principle over the nested trie structure -/
theorem node_ind {motive : Node → Prop}
    (h : ∀ b c q z o, (∀ m, z = some m → motive m) → (∀ m, o = some m → motive m) →
      motive (Node.mk b c q z o)) : ∀ n, motive n
  | .mk b c q none none =>
      h b c q none none (fun _ hm => nomatch hm) (fun _ hm => nomatch hm)
  | .mk b c q (some mz) none =>
      h b c q (some mz) none (fun _ hm => Option.some.inj hm ▸ node_ind h mz)
        (fun _ hm => nomatch hm)
  | .mk b c q none (some mo) =>
      h b c q none (some mo) (fun _ hm => nomatch hm)
        (fun _ hm => Option.some.inj hm ▸ node_ind h mo)
  | .mk b c q (some mz) (some mo) =>
      h b c q (some mz) (some mo) (fun _ hm => Option.some.inj hm ▸ node_ind h mz)
        (fun _ hm => Option.some.inj hm ▸ node_ind h mo)

/-! ## Structural consequences of well-formedness -/

theorem entries_facts {w : Nat} (n : Node) (hwf : WF w n) :
    ∀ e ∈ entriesOpt (some n), e.bits.length = w ∧ e.cidr ≤ w ∧
      maskAddr e.bits e.cidr = e.bits := by
  induction n using node_ind with
  | h b c q z o ihz iho =>
    cases hwf with
    | mk hlen hc hmask hcz hco hwz hwo =>
      intro e he
      simp only [entriesOpt, List.mem_append] at he
      rcases he with he | he | he
      · cases q with
        | none => exact absurd he (List.not_mem_nil e)
        | some u =>
          simp only [ownEntry, List.mem_singleton] at he
          subst he
          exact ⟨hlen, hc, hmask⟩
      · cases z with
        | none => simp [entriesOpt] at he
        | some mz => exact ihz mz rfl (hwz mz rfl) e he
      · cases o with
        | none => simp [entriesOpt] at he
        | some mo => exact iho mo rfl (hwo mo rfl) e he

theorem nodes_wf {w : Nat} (n : Node) (hwf : WF w n) :
    ∀ bc ∈ nodesList (some n), bc.1.length = w ∧ bc.2 ≤ w ∧
      maskAddr bc.1 bc.2 = bc.1 := by
  induction n using node_ind with
  | h b c q z o ihz iho =>
    cases hwf with
    | mk hlen hc hmask hcz hco hwz hwo =>
      intro bc hbc
      simp only [nodesList, List.mem_cons, List.mem_append] at hbc
      rcases hbc with rfl | hbc | hbc
      · exact ⟨hlen, hc, hmask⟩
      · cases z with
        | none => simp [nodesList] at hbc
        | some mz => exact ihz mz rfl (hwz mz rfl) bc hbc
      · cases o with
        | none => simp [nodesList] at hbc
        | some mo => exact iho mo rfl (hwo mo rfl) bc hbc

theorem nodes_below {w : Nat} (n : Node) (hwf : WF w n) (j : Nat) (hj : j < n.cidr) :
    ∀ bc ∈ nodesList (some n), j < bc.2 ∧ bc.1.take j = n.bits.take j ∧
      bc.1.getD j false = n.bits.getD j false := by
  induction n using node_ind with
  | h b c q z o ihz iho =>
    cases hwf with
    | mk hlen hc hmask hcz hco hwz hwo =>
      intro bc hbc
      simp only [Node.cidr] at hj
      simp only [Node.bits]
      simp only [nodesList, List.mem_cons, List.mem_append] at hbc
      rcases hbc with rfl | hbc | hbc
      · exact ⟨hj, rfl, rfl⟩
      · cases z with
        | none => simp [nodesList] at hbc
        | some mz =>
          obtain ⟨hc1, ht1, hg1⟩ := hcz
          have hj1 : j < mz.cidr := Nat.lt_trans hj hc1
          obtain ⟨ha, hb2, hc2⟩ := ihz mz rfl (hwz mz rfl) hj1 bc hbc
          refine ⟨ha, ?_, ?_⟩
          · exact hb2.trans (take_eq_mono ht1 (Nat.le_of_lt hj))
          · exact hc2.trans (getD_of_take_eq ht1 hj)
      · cases o with
        | none => simp [nodesList] at hbc
        | some mo =>
          obtain ⟨hc1, ht1, hg1⟩ := hco
          have hj1 : j < mo.cidr := Nat.lt_trans hj hc1
          obtain ⟨ha, hb2, hc2⟩ := iho mo rfl (hwo mo rfl) hj1 bc hbc
          refine ⟨ha, ?_, ?_⟩
          · exact hb2.trans (take_eq_mono ht1 (Nat.le_of_lt hj))
          · exact hc2.trans (getD_of_take_eq ht1 hj)

/-- every (bits, cidr) pair below a child slot is strictly deeper than the
parent, extends the parent prefix and carries the slot bit -/
theorem child_nodes_facts {w : Nat} {mz : Node} (hwf : WF w mz) {b : Addr} {c : Nat} {i : Bool}
    (hcid : c < mz.cidr) (htk : mz.bits.take c = b.take c) (hgd : mz.bits.getD c false = i) :
    ∀ bc ∈ nodesList (some mz), c < bc.2 ∧ bc.1.take c = b.take c ∧ bc.1.getD c false = i := by
  intro bc hbc
  obtain ⟨h1, h2, h3⟩ := nodes_below mz hwf c hcid bc hbc
  exact ⟨h1, h2.trans htk, h3.trans hgd⟩

theorem nodes_nodup {w : Nat} (n : Node) (hwf : WF w n) : (nodesList (some n)).Nodup := by
  induction n using node_ind with
  | h b c q z o ihz iho =>
    cases hwf with
    | mk hlen hc hmask hcz hco hwz hwo =>
      have hz : (nodesList z).Nodup := by
        cases z with
        | none => simp [nodesList]
        | some mz => exact ihz mz rfl (hwz mz rfl)
      have ho : (nodesList o).Nodup := by
        cases o with
        | none => simp [nodesList]
        | some mo => exact iho mo rfl (hwo mo rfl)
      have hdeep : ∀ bc ∈ nodesList z, c < bc.2 := by
        cases z with
        | none => simp [nodesList]
        | some mz =>
          intro bc hbc
          obtain ⟨h1, h2, h3⟩ := hcz
          exact (child_nodes_facts (hwz mz rfl) h1 h2 h3 bc hbc).1
      have hdeep2 : ∀ bc ∈ nodesList o, c < bc.2 := by
        cases o with
        | none => simp [nodesList]
        | some mo =>
          intro bc hbc
          obtain ⟨h1, h2, h3⟩ := hco
          exact (child_nodes_facts (hwo mo rfl) h1 h2 h3 bc hbc).1
      have hdisj : (nodesList z).Disjoint (nodesList o) := by
        cases z with
        | none => simp [nodesList, List.Disjoint]
        | some mz =>
          cases o with
          | none => simp [nodesList, List.Disjoint]
          | some mo =>
            intro bc hbz hbo
            obtain ⟨h1, h2, h3⟩ := hcz
            obtain ⟨h4, h5, h6⟩ := hco
            have hfz := (child_nodes_facts (hwz mz rfl) h1 h2 h3 bc hbz).2.2
            have hfo := (child_nodes_facts (hwo mo rfl) h4 h5 h6 bc hbo).2.2
            rw [hfz] at hfo
            exact Bool.false_ne_true hfo
      simp only [nodesList, List.nodup_cons, List.mem_append]
      refine ⟨?_, hz.append ho hdisj⟩
      intro hmem
      rcases hmem with hmem | hmem
      · exact absurd rfl (Nat.ne_of_lt (hdeep (b, c) hmem))
      · exact absurd rfl (Nat.ne_of_lt (hdeep2 (b, c) hmem))

theorem entries_sub_nodes : ∀ t : Option Node,
    ((entriesOpt t).map (fun e => (e.bits, e.cidr))).Sublist (nodesList t)
  | none => by simp [entriesOpt, nodesList]
  | some n => by
    induction n using node_ind with
    | h b c q z o ihz iho =>
      have hz : ((entriesOpt z).map (fun e => (e.bits, e.cidr))).Sublist (nodesList z) := by
        cases z with
        | none => simp [entriesOpt, nodesList]
        | some mz => exact ihz mz rfl
      have ho : ((entriesOpt o).map (fun e => (e.bits, e.cidr))).Sublist (nodesList o) := by
        cases o with
        | none => simp [entriesOpt, nodesList]
        | some mo => exact iho mo rfl
      cases q with
      | none =>
        simp only [entriesOpt, ownEntry, nodesList, List.map_append, List.map_nil,
          List.nil_append]
        exact (List.Sublist.append hz ho).cons (b, c)
      | some u =>
        simp only [entriesOpt, ownEntry, nodesList, List.map_append, List.map_cons, List.map_nil,
          List.singleton_append]
        exact (List.Sublist.append hz ho).cons₂ (b, c)

theorem entry_key_mem {t : Option Node} {e : Entry} (he : e ∈ entriesOpt t) :
    (e.bits, e.cidr) ∈ nodesList t :=
  (entries_sub_nodes t).subset (List.mem_map_of_mem _ he)

theorem entries_keys_nodup {w : Nat} (n : Node) (hwf : WF w n) :
    ((entriesOpt (some n)).map (fun e => (e.bits, e.cidr))).Nodup :=
  (entries_sub_nodes (some n)).nodup (nodes_nodup n hwf)

/-- entries below a child slot: strictly deeper, extending the parent
prefix, carrying the slot bit -/
theorem entries_child_facts {w : Nat} {mz : Node} (hwf : WF w mz) {b : Addr} {c : Nat} {i : Bool}
    (hcid : c < mz.cidr) (htk : mz.bits.take c = b.take c) (hgd : mz.bits.getD c false = i) :
    ∀ e ∈ entriesOpt (some mz), c < e.cidr ∧ e.bits.take c = b.take c ∧
      e.bits.getD c false = i := by
  intro e he
  exact child_nodes_facts hwf hcid htk hgd (e.bits, e.cidr) (entry_key_mem he)

/-! ## Soundness, completeness and maximality of the trie lookup -/

theorem lookupB_some (b : Addr) (c : Nat) (q : Option Peer) (z o : Option Node) (key : Addr) :
    lookupB (some (.mk b c q z o)) key =
      if key.take c = b.take c then
        match (if bitAt key c then lookupB o key else lookupB z key) with
        | some r => some r
        | none => Option.map (fun u => (c, u)) q
      else none := by
  simp [lookupB]

/-- a lookup result is at least as specific as the root -/
theorem lookupB_cidr_ge {w : Nat} (n : Node) (hwf : WF w n) (key : Addr) (r : Nat × Peer)
    (heq : lookupB (some n) key = some r) : n.cidr ≤ r.1 := by
  induction n using node_ind with
  | h b c q z o ihz iho =>
    cases hwf with
    | mk hlen hc hmask hcz hco hwz hwo =>
      rw [lookupB_some] at heq
      simp only [Node.cidr]
      by_cases hg : key.take c = b.take c
      · rw [if_pos hg] at heq
        rcases hdeep : (if bitAt key c then lookupB o key else lookupB z key) with _ | r0
        · rw [hdeep] at heq
          cases q with
          | none => simp at heq
          | some u =>
            simp only [Option.map_some'] at heq
            have hr : (c, u) = r := Option.some.inj heq
            rw [← hr]
        · rw [hdeep] at heq
          simp only [Option.some.injEq] at heq
          subst heq
          by_cases hb : bitAt key c
          · rw [if_pos hb] at hdeep
            cases o with
            | none => simp [lookupB] at hdeep
            | some mo =>
              have h1 := iho mo rfl (hwo mo rfl) hdeep
              exact Nat.le_of_lt (Nat.lt_of_lt_of_le hco.1 h1)
          · rw [if_neg hb] at hdeep
            cases z with
            | none => simp [lookupB] at hdeep
            | some mz =>
              have h1 := ihz mz rfl (hwz mz rfl) hdeep
              exact Nat.le_of_lt (Nat.lt_of_lt_of_le hcz.1 h1)
      · rw [if_neg hg] at heq
        exact absurd heq (by simp)

/-- soundness: a lookup result is an entry of the trie matching the key -/
theorem lookupB_sound {w : Nat} (n : Node) (hwf : WF w n) (key : Addr) (r : Nat × Peer)
    (heq : lookupB (some n) key = some r) :
    ∃ b1, (⟨b1, r.1, r.2⟩ : Entry) ∈ entriesOpt (some n) ∧ key.take r.1 = b1.take r.1 := by
  induction n using node_ind with
  | h b c q z o ihz iho =>
    cases hwf with
    | mk hlen hc hmask hcz hco hwz hwo =>
      rw [lookupB_some] at heq
      by_cases hg : key.take c = b.take c
      · rw [if_pos hg] at heq
        rcases hdeep : (if bitAt key c then lookupB o key else lookupB z key) with _ | r0
        · rw [hdeep] at heq
          cases q with
          | none => simp at heq
          | some u =>
            simp only [Option.map_some'] at heq
            have hr := Option.some.inj heq
            refine ⟨b, ?_, ?_⟩
            · rw [← hr]
              simp [entriesOpt, ownEntry]
            · rw [← hr]
              exact hg
        · rw [hdeep] at heq
          have hr := Option.some.inj heq
          subst hr
          by_cases hb : bitAt key c
          · rw [if_pos hb] at hdeep
            cases o with
            | none => simp [lookupB] at hdeep
            | some mo =>
              obtain ⟨b1, hmem, htk⟩ := iho mo rfl (hwo mo rfl) hdeep
              refine ⟨b1, ?_, htk⟩
              simp only [entriesOpt, List.mem_append]
              exact Or.inr (Or.inr hmem)
          · rw [if_neg hb] at hdeep
            cases z with
            | none => simp [lookupB] at hdeep
            | some mz =>
              obtain ⟨b1, hmem, htk⟩ := ihz mz rfl (hwz mz rfl) hdeep
              refine ⟨b1, ?_, htk⟩
              simp only [entriesOpt, List.mem_append]
              exact Or.inr (Or.inl hmem)
      · rw [if_neg hg] at heq
        exact absurd heq (by simp)

/-- completeness: an entry matching the key forces a lookup result at
least as specific -/
theorem lookupB_complete {w : Nat} (n : Node) (hwf : WF w n) (key : Addr) (e : Entry)
    (he : e ∈ entriesOpt (some n)) (hm : key.take e.cidr = e.bits.take e.cidr) :
    ∃ r, lookupB (some n) key = some r ∧ e.cidr ≤ r.1 := by
  induction n using node_ind with
  | h b c q z o ihz iho =>
    cases hwf with
    | mk hlen hc hmask hcz hco hwz hwo =>
      simp only [entriesOpt, List.mem_append] at he
      rw [lookupB_some]
      rcases he with he | he | he
      · cases q with
        | none => exact absurd he (List.not_mem_nil e)
        | some u =>
          simp only [ownEntry, List.mem_singleton] at he
          subst he
          rw [if_pos hm]
          rcases hdeep : (if bitAt key c then lookupB o key else lookupB z key) with _ | r0
          · exact ⟨(c, u), rfl, Nat.le_refl c⟩
          · refine ⟨r0, rfl, ?_⟩
            by_cases hb : bitAt key c
            · rw [if_pos hb] at hdeep
              cases o with
              | none => simp [lookupB] at hdeep
              | some mo =>
                have h1 := lookupB_cidr_ge mo (hwo mo rfl) key r0 hdeep
                exact Nat.le_of_lt (Nat.lt_of_lt_of_le hco.1 h1)
            · rw [if_neg hb] at hdeep
              cases z with
              | none => simp [lookupB] at hdeep
              | some mz =>
                have h1 := lookupB_cidr_ge mz (hwz mz rfl) key r0 hdeep
                exact Nat.le_of_lt (Nat.lt_of_lt_of_le hcz.1 h1)
      · cases z with
        | none => simp [entriesOpt] at he
        | some mz =>
          obtain ⟨hc1, ht1, hg1⟩ := hcz
          obtain ⟨hec, het, heg⟩ := entries_child_facts (hwz mz rfl) hc1 ht1 hg1 e he
          have hg : key.take c = b.take c :=
            (take_eq_mono hm (Nat.le_of_lt hec)).trans het
          rw [if_pos hg]
          have hkb : bitAt key c = false := (getD_of_take_eq hm hec).trans heg
          obtain ⟨r0, hlz, hcb⟩ := ihz mz rfl (hwz mz rfl) he
          rw [hkb]
          simp only [Bool.false_eq_true, if_false, hlz]
          exact ⟨r0, rfl, hcb⟩
      · cases o with
        | none => simp [entriesOpt] at he
        | some mo =>
          obtain ⟨hc1, ht1, hg1⟩ := hco
          obtain ⟨hec, het, heg⟩ := entries_child_facts (hwo mo rfl) hc1 ht1 hg1 e he
          have hg : key.take c = b.take c :=
            (take_eq_mono hm (Nat.le_of_lt hec)).trans het
          rw [if_pos hg]
          have hkb : bitAt key c = true := (getD_of_take_eq hm hec).trans heg
          obtain ⟨r0, hlo, hcb⟩ := iho mo rfl (hwo mo rfl) he
          rw [hkb]
          simp only [if_true, hlo]
          exact ⟨r0, rfl, hcb⟩

/-- maximality: the lookup result is at least as specific as every entry
matching the key -/
theorem lookupB_max {w : Nat} (n : Node) (hwf : WF w n) (key : Addr) (r : Nat × Peer)
    (heq : lookupB (some n) key = some r) (e : Entry) (he : e ∈ entriesOpt (some n))
    (hm : key.take e.cidr = e.bits.take e.cidr) : e.cidr ≤ r.1 := by
  obtain ⟨r1, heq1, hle⟩ := lookupB_complete n hwf key e he hm
  rw [heq] at heq1
  have := Option.some.inj heq1
  rw [← this] at hle
  exact hle

/-! ## Insertion preserves well-formedness -/

theorem childOK_some {b : Addr} {c : Nat} {i : Bool} {m : Node} :
    childOK b c i (some m) ↔
      c < m.cidr ∧ m.bits.take c = b.take c ∧ bitAt m.bits c = i :=
  Iff.rfl

theorem ins_some (n : Node) (cand : Addr) (cidr : Nat) (p : Peer) :
    ∃ m1, ins (some n) cand cidr p = some m1 := by
  obtain ⟨b, c, q, z, o⟩ := n
  simp only [ins]
  repeat' split
  all_goals exact ⟨_, rfl⟩

/-- the conclusions of the insertion lemma about the root of the result:
the root is still deeper than any position j on which the previous root
agreed with the candidate, and agrees with the candidate there -/
def insRootFacts (cand : Addr) (cidr : Nat) (n m1 : Node) : Prop :=
  ∀ j, j < n.cidr → j < cidr → n.bits.take j = cand.take j →
    n.bits.getD j false = cand.getD j false →
    j < m1.cidr ∧ m1.bits.take j = cand.take j ∧ m1.bits.getD j false = cand.getD j false

theorem ins_wf {w : Nat} (cand : Addr) (cidr : Nat) (p : Peer)
    (hcl : cand.length = w) (hcw : cidr ≤ w) (hcm : maskAddr cand cidr = cand) :
    ∀ n : Node, WF w n →
      (∀ m1, ins (some n) cand cidr p = some m1 → WF w m1 ∧ insRootFacts cand cidr n m1) := by
  intro n
  induction n using node_ind with
  | h b c q z o ihz iho =>
    intro hwf m1 hres
    cases hwf with
    | mk hlen hc hmask hcz hco hwz hwo =>
      have hwfold : WF w (.mk b c q z o) := WF.mk hlen hc hmask hcz hco hwz hwo
      simp only [ins] at hres
      set co := min (min c cidr) (firstDiff b cand) with hcodef
      have hcoc : co ≤ c := le_trans (Nat.min_le_left _ _) (Nat.min_le_left _ _)
      have hcod : co ≤ cidr := le_trans (Nat.min_le_left _ _) (Nat.min_le_right _ _)
      have hcof : co ≤ firstDiff b cand := Nat.min_le_right _ _
      by_cases hcc : co = cidr
      · rw [if_pos hcc] at hres
        by_cases hc2 : co = c
        · -- exact match: replace the owner in place
          rw [if_pos hc2] at hres
          have hm1 := Option.some.inj hres
          subst hm1
          constructor
          · exact WF.mk hlen hc hmask hcz hco hwz hwo
          · intro j hj hj2 ht hg
            exact ⟨hj, ht, hg⟩
        · -- the candidate becomes the parent of the whole subtree
          rw [if_neg hc2] at hres
          have hlt : cidr < c := by omega
          have hfd : cidr ≤ firstDiff b cand := by omega
          have htk : b.take cidr = cand.take cidr :=
            take_eq_mono (take_fd b cand) hfd
          have hok : childOK cand cidr (bitAt b cidr) (some (.mk b c q z o)) := by
            rw [childOK_some]
            exact ⟨hlt, htk, rfl⟩
          by_cases hb : bitAt b cidr
          · rw [if_pos hb] at hres
            have hm1 := Option.some.inj hres
            subst hm1
            rw [hb] at hok
            constructor
            · exact WF.mk hcl hcw hcm trivial hok
                (fun m hm => nomatch hm)
                (fun m hm => Option.some.inj hm ▸ hwfold)
            · intro j hj hj2 ht hg
              exact ⟨hj2, rfl, rfl⟩
          · rw [if_neg hb] at hres
            have hm1 := Option.some.inj hres
            subst hm1
            have hb2 : bitAt b cidr = false := by
              cases hbv : bitAt b cidr with
              | true => exact absurd hbv hb
              | false => rfl
            rw [hb2] at hok
            constructor
            · exact WF.mk hcl hcw hcm hok trivial
                (fun m hm => Option.some.inj hm ▸ hwfold)
                (fun m hm => nomatch hm)
            · intro j hj hj2 ht hg
              exact ⟨hj2, rfl, rfl⟩
      · rw [if_neg hcc] at hres
        by_cases hc2 : co = c
        · -- descend into the child selected by the candidate bit at c
          rw [if_pos hc2] at hres
          have hlt : c < cidr := by omega
          have hfd : c ≤ firstDiff b cand := by omega
          have htk : b.take c = cand.take c := take_eq_mono (take_fd b cand) hfd
          by_cases hb : bitAt cand c
          · -- new entry goes to the one-side child
            rw [if_pos hb] at hres
            have hm1 := Option.some.inj hres
            subst hm1
            have hnew : ∀ m2, ins o cand cidr p = some m2 →
                WF w m2 ∧ childOK b c true (some m2) := by
              intro m2 h2
              cases o with
              | none =>
                simp only [ins] at h2
                have hm2 := Option.some.inj h2
                subst hm2
                refine ⟨WF.mk hcl hcw hcm trivial trivial
                  (fun m hm => nomatch hm) (fun m hm => nomatch hm), ?_⟩
                rw [childOK_some]
                refine ⟨hlt, htk.symm, ?_⟩
                simp only [Node.bits]
                exact hb
              | some mo =>
                obtain ⟨hoc, hot, hog⟩ := childOK_some.mp hco
                obtain ⟨hwf2, hfacts⟩ := iho mo rfl (hwo mo rfl) m2 h2
                have hmt : mo.bits.take c = cand.take c := hot.trans htk
                have hmg : mo.bits.getD c false = cand.getD c false := by
                  rw [← bitAt_eq, ← bitAt_eq, hog, hb]
                obtain ⟨hf1, hf2, hf3⟩ := hfacts c hoc hlt hmt hmg
                refine ⟨hwf2, ?_⟩
                rw [childOK_some]
                refine ⟨hf1, ?_, ?_⟩
                · rw [hf2, ← htk]
                · rw [bitAt_eq, hf3, ← bitAt_eq]
                  exact hb
            rcases hro : ins o cand cidr p with _ | m2
            · cases o with
              | none => simp [ins] at hro
              | some mo => exact absurd hro (by
                  obtain ⟨m3, h3⟩ := ins_some mo cand cidr p
                  simp [h3])
            · obtain ⟨hwf2, hok2⟩ := hnew m2 hro
              constructor
              · exact WF.mk hlen hc hmask hcz hok2 hwz
                  (fun m hm => Option.some.inj hm ▸ hwf2)
              · intro j hj hj2 ht hg
                exact ⟨hj, ht, hg⟩
          · -- new entry goes to the zero-side child
            rw [if_neg hb] at hres
            have hm1 := Option.some.inj hres
            subst hm1
            have hb2 : bitAt cand c = false := by
              cases hbv : bitAt cand c with
              | true => exact absurd hbv hb
              | false => rfl
            have hnew : ∀ m2, ins z cand cidr p = some m2 →
                WF w m2 ∧ childOK b c false (some m2) := by
              intro m2 h2
              cases z with
              | none =>
                simp only [ins] at h2
                have hm2 := Option.some.inj h2
                subst hm2
                refine ⟨WF.mk hcl hcw hcm trivial trivial
                  (fun m hm => nomatch hm) (fun m hm => nomatch hm), ?_⟩
                rw [childOK_some]
                refine ⟨hlt, htk.symm, ?_⟩
                simp only [Node.bits]
                exact hb2
              | some mz =>
                obtain ⟨hoc, hot, hog⟩ := childOK_some.mp hcz
                obtain ⟨hwf2, hfacts⟩ := ihz mz rfl (hwz mz rfl) m2 h2
                have hmt : mz.bits.take c = cand.take c := hot.trans htk
                have hmg : mz.bits.getD c false = cand.getD c false := by
                  rw [← bitAt_eq, ← bitAt_eq, hog, hb2]
                obtain ⟨hf1, hf2, hf3⟩ := hfacts c hoc hlt hmt hmg
                refine ⟨hwf2, ?_⟩
                rw [childOK_some]
                refine ⟨hf1, ?_, ?_⟩
                · rw [hf2, ← htk]
                · rw [bitAt_eq, hf3, ← bitAt_eq]
                  exact hb2
            rcases hro : ins z cand cidr p with _ | m2
            · cases z with
              | none => simp [ins] at hro
              | some mz => exact absurd hro (by
                  obtain ⟨m3, h3⟩ := ins_some mz cand cidr p
                  simp [h3])
            · obtain ⟨hwf2, hok2⟩ := hnew m2 hro
              constructor
              · exact WF.mk hlen hc hmask hok2 hco
                  (fun m hm => Option.some.inj hm ▸ hwf2) hwo
              · intro j hj hj2 ht hg
                exact ⟨hj, ht, hg⟩
        · -- genuine divergence: materialize an ownerless fork
          rw [if_neg hc2] at hres
          have hltc : co < c := by omega
          have hltd : co < cidr := by omega
          have hfd : co = firstDiff b cand := by
            rcases Nat.le_total (min c cidr) (firstDiff b cand) with h2 | h2
            · have h3 := Nat.min_eq_left h2
              have h4 := Nat.min_le_left c cidr
              have h5 := Nat.min_le_right c cidr
              omega
            · exact Nat.min_eq_right h2
          have hblen : co < b.length := by omega
          have hclen : co < cand.length := by omega
          have htk : b.take co = cand.take co := by
            rw [hfd]
            exact take_fd b cand
          have hne : ¬ bitAt b co = bitAt cand co := by
            rw [bitAt_eq, bitAt_eq]
            rw [hfd] at hblen hclen ⊢
            exact fd_ne b cand hblen hclen
          have hfl : (maskAddr cand co).length = w := by
            rw [maskAddr_length, hcl]
          have hfw : co ≤ w := by omega
          have hfm : maskAddr (maskAddr cand co) co = maskAddr cand co := maskAddr_idem _ _
          have hcolen : co ≤ cand.length := by omega
          have hftake : (maskAddr cand co).take co = cand.take co :=
            maskAddr_take hcolen (Nat.le_refl co)
          have hwleaf : WF w (.mk cand cidr (some p) none none) :=
            WF.mk hcl hcw hcm trivial trivial (fun m hm => nomatch hm) (fun m hm => nomatch hm)
          have hfactsgen : ∀ j, j < c → j < cidr → b.take j = cand.take j →
              b.getD j false = cand.getD j false →
              j < co ∧ (maskAddr cand co).take j = cand.take j ∧
                (maskAddr cand co).getD j false = cand.getD j false := by
            intro j hj hj2 ht hg
            have hjb : j < b.length := by omega
            have hjc : j < cand.length := by omega
            have hjco : j < co := by
              have := fd_succ b cand j ht hg hjb hjc
              omega
            refine ⟨hjco, ?_, ?_⟩
            · exact maskAddr_take hcolen (Nat.le_of_lt hjco)
            · exact maskAddr_getD_lt hcolen hjco
          by_cases hb : bitAt cand co
          · rw [if_pos hb] at hres
            have hm1 := Option.some.inj hres
            subst hm1
            have hbold : bitAt b co = false := by
              cases hbv : bitAt b co with
              | true =>
                rw [hbv, hb] at hne
                exact absurd rfl hne
              | false => rfl
            constructor
            · refine WF.mk hfl hfw hfm ?_ ?_ ?_ ?_
              · rw [childOK_some]
                refine ⟨hltc, ?_, ?_⟩
                · simp only [Node.bits]
                  rw [htk, hftake]
                · simp only [Node.bits, hbold]
              · rw [childOK_some]
                refine ⟨hltd, ?_, ?_⟩
                · simp only [Node.bits]
                  rw [hftake]
                · simp only [Node.bits, hb]
              · exact fun m hm => Option.some.inj hm ▸ hwfold
              · exact fun m hm => Option.some.inj hm ▸ hwleaf
            · intro j hj hj2 ht hg
              exact hfactsgen j hj hj2 ht hg
          · rw [if_neg hb] at hres
            have hm1 := Option.some.inj hres
            subst hm1
            have hb2 : bitAt cand co = false := by
              cases hbv : bitAt cand co with
              | true => exact absurd hbv hb
              | false => rfl
            have hbold : bitAt b co = true := by
              cases hbv : bitAt b co with
              | false =>
                rw [hbv, hb2] at hne
                exact absurd rfl hne
              | true => rfl
            constructor
            · refine WF.mk hfl hfw hfm ?_ ?_ ?_ ?_
              · rw [childOK_some]
                refine ⟨hltd, ?_, ?_⟩
                · simp only [Node.bits]
                  rw [hftake]
                · simp only [Node.bits, hb2]
              · rw [childOK_some]
                refine ⟨hltc, ?_, ?_⟩
                · simp only [Node.bits]
                  rw [htk, hftake]
                · simp only [Node.bits, hbold]
              · exact fun m hm => Option.some.inj hm ▸ hwleaf
              · exact fun m hm => Option.some.inj hm ▸ hwfold
            · intro j hj hj2 ht hg
              exact hfactsgen j hj hj2 ht hg

/-! ## One insertion shifts the lookup by one brute-force scan step -/

theorem lookupB_none_guard {b : Addr} {c : Nat} {q : Option Peer} {z o : Option Node}
    {key : Addr} (h : ¬ key.take c = b.take c) :
    lookupB (some (.mk b c q z o)) key = none := by
  rw [lookupB_some, if_neg h]

theorem lookupB_guard_of_some {b : Addr} {c : Nat} {q : Option Peer} {z o : Option Node}
    {key : Addr} {r : Nat × Peer} (h : lookupB (some (.mk b c q z o)) key = some r) :
    key.take c = b.take c := by
  by_cases hg : key.take c = b.take c
  · exact hg
  · rw [lookupB_none_guard hg] at h
    exact absurd h (by simp)

theorem lookupB_child_gt {w : Nat} {t : Option Node} (hwf : WFopt w t) {b : Addr} {c : Nat}
    {i : Bool} (hok : childOK b c i t) {key : Addr} {r : Nat × Peer}
    (h : lookupB t key = some r) : c < r.1 := by
  cases t with
  | none => simp [lookupB] at h
  | some m =>
    exact Nat.lt_of_lt_of_le (childOK_some.mp hok).1 (lookupB_cidr_ge m hwf key r h)

theorem ins_step_none (cand : Addr) (cidr : Nat) (p : Peer) (key : Addr) :
    lookupB (ins none cand cidr p) key =
      stepBest key (lookupB none key) ⟨cand, cidr, p⟩ := by
  simp only [ins, lookupB_some, lookupB, stepBest]
  by_cases hm : key.take cidr = cand.take cidr
  · rw [if_pos hm, if_pos hm]
    cases hkb : bitAt key cidr <;> simp
  · rw [if_neg hm, if_neg hm]

theorem stepBest_mk (key : Addr) (best : Option (Nat × Peer)) (cand : Addr) (cidr : Nat)
    (p : Peer) :
    stepBest key best ⟨cand, cidr, p⟩ =
      if key.take cidr = cand.take cidr then
        match best with
        | none => some (cidr, p)
        | some (c0, u) => if c0 ≤ cidr then some (cidr, p) else some (c0, u)
      else best := rfl

theorem ins_step {w : Nat} (cand : Addr) (cidr : Nat) (p : Peer) (key : Addr)
    (hcl : cand.length = w) (hcw : cidr ≤ w) (hcm : maskAddr cand cidr = cand) :
    ∀ n : Node, WF w n →
      lookupB (ins (some n) cand cidr p) key =
        stepBest key (lookupB (some n) key) ⟨cand, cidr, p⟩ := by
  intro n
  induction n using node_ind with
  | h b c q z o ihz iho =>
    intro hwf
    cases hwf with
    | mk hlen hc hmask hcz hco hwz hwo =>
      simp only [ins]
      set co := min (min c cidr) (firstDiff b cand) with hcodef
      have hcoc : co ≤ c := le_trans (Nat.min_le_left _ _) (Nat.min_le_left _ _)
      have hcod : co ≤ cidr := le_trans (Nat.min_le_left _ _) (Nat.min_le_right _ _)
      have hcof : co ≤ firstDiff b cand := Nat.min_le_right _ _
      by_cases hcc : co = cidr
      · rw [if_pos hcc]
        by_cases hc2 : co = c
        · -- exact match: replacement in place
          rw [if_pos hc2]
          have hceq : c = cidr := by omega
          subst hceq
          have htk : b.take c = cand.take c := take_eq_mono (take_fd b cand) (by omega)
          by_cases hg : key.take c = b.take c
          · have hm : key.take c = cand.take c := hg.trans htk
            rcases hdeep : (if bitAt key c then lookupB o key else lookupB z key)
              with _ | ⟨rc, ru⟩
            · cases q <;> simp [lookupB_some, stepBest_mk, hg, hm, hdeep, -List.getD_eq_getElem?_getD, htk]
            · have hgt : c < rc := by
                cases hkb : bitAt key c
                · rw [hkb] at hdeep
                  simp only [Bool.false_eq_true, if_false] at hdeep
                  exact lookupB_child_gt (wfopt_of w z hwz) hcz hdeep
                · rw [hkb] at hdeep
                  simp only [if_true] at hdeep
                  exact lookupB_child_gt (wfopt_of w o hwo) hco hdeep
              have hnle : ¬ rc ≤ c := by omega
              simp [lookupB_some, stepBest_mk, hg, hm, hdeep, hnle, -List.getD_eq_getElem?_getD, htk]
          · have hm : ¬ key.take c = cand.take c := fun hx => hg (hx.trans htk.symm)
            simp [lookupB_some, stepBest_mk, hg, hm, -List.getD_eq_getElem?_getD, htk]
        · -- the candidate becomes the parent of the whole subtree
          rw [if_neg hc2]
          have hlt : cidr < c := by omega
          have htk : b.take cidr = cand.take cidr := take_eq_mono (take_fd b cand) (by omega)
          by_cases hm : key.take cidr = cand.take cidr
          · rcases hold2 : lookupB (some (.mk b c q z o)) key with _ | ⟨rc, ru⟩
            · cases hbb : bitAt b cidr <;> cases hkb : bitAt key cidr <;>
                simp [lookupB_some, stepBest_mk, hm, hold2, lookupB,
                  -List.getD_eq_getElem?_getD, htk]
            · have hg : key.take c = b.take c := lookupB_guard_of_some hold2
              have hkb : bitAt key cidr = bitAt b cidr := getD_of_take_eq hg hlt
              have hgt : cidr < rc := by
                have h1 := lookupB_cidr_ge _ (WF.mk hlen hc hmask hcz hco hwz hwo)
                  key (rc, ru) hold2
                simp only [Node.cidr] at h1
                omega
              have hnle : ¬ rc ≤ cidr := by omega
              cases hbb : bitAt b cidr <;>
                (rw [hbb] at hkb
                 simp [lookupB_some, stepBest_mk, hm, hkb, hold2, hnle, lookupB])
          · have hold2 : lookupB (some (.mk b c q z o)) key = none := by
              by_cases hg : key.take c = b.take c
              · exact absurd ((take_eq_mono hg (Nat.le_of_lt hlt)).trans htk) hm
              · exact lookupB_none_guard hg
            cases hbb : bitAt b cidr <;>
              simp [lookupB_some, stepBest_mk, hm, hold2, lookupB, -List.getD_eq_getElem?_getD, htk]
      · rw [if_neg hcc]
        by_cases hc2 : co = c
        · -- descend into the child selected by the candidate bit at c
          rw [if_pos hc2]
          have hlt : c < cidr := by omega
          have htk : b.take c = cand.take c := take_eq_mono (take_fd b cand) (by omega)
          have hsz : lookupB (ins z cand cidr p) key =
              stepBest key (lookupB z key) ⟨cand, cidr, p⟩ := by
            cases z with
            | none => exact ins_step_none cand cidr p key
            | some mz => exact ihz mz rfl (hwz mz rfl)
          have hso : lookupB (ins o cand cidr p) key =
              stepBest key (lookupB o key) ⟨cand, cidr, p⟩ := by
            cases o with
            | none => exact ins_step_none cand cidr p key
            | some mo => exact iho mo rfl (hwo mo rfl)
          by_cases hg : key.take c = b.take c
          · cases hcb : bitAt cand c
            · cases hkb : bitAt key c
              · -- insertion and key both go to the zero child
                rcases hzk : lookupB z key with _ | ⟨rc, ru⟩
                · by_cases hm : key.take cidr = cand.take cidr
                  · cases q <;>
                      simp [lookupB_some, stepBest_mk, hg, hm, hkb, hzk, hsz,
                        Nat.le_of_lt hlt]
                  · cases q <;>
                      simp [lookupB_some, stepBest_mk, hg, hm, hkb, hzk, hsz,
                        -List.getD_eq_getElem?_getD, htk]
                · have hv : ∃ v, stepBest key (some (rc, ru)) (⟨cand, cidr, p⟩ : Entry) =
                      some v := by
                    rw [stepBest_mk]
                    by_cases hm : key.take cidr = cand.take cidr
                    · rw [if_pos hm]
                      dsimp only
                      by_cases hle : rc ≤ cidr
                      · exact ⟨_, by rw [if_pos hle]⟩
                      · exact ⟨_, by rw [if_neg hle]⟩
                    · exact ⟨_, by rw [if_neg hm]⟩
                  obtain ⟨v, hv⟩ := hv
                  simp [lookupB_some, hg, hkb, hzk, hsz, hv,
                    -List.getD_eq_getElem?_getD, htk]
              · -- insertion goes to the zero child, key to the one child
                have hm : ¬ key.take cidr = cand.take cidr := by
                  intro hx
                  have h1 : bitAt key c = bitAt cand c := getD_of_take_eq hx hlt
                  rw [hkb, hcb] at h1
                  simp at h1
                simp [lookupB_some, stepBest_mk, hg, hm, hkb,
                  -List.getD_eq_getElem?_getD, htk]
            · cases hkb : bitAt key c
              · -- insertion goes to the one child, key to the zero child
                have hm : ¬ key.take cidr = cand.take cidr := by
                  intro hx
                  have h1 : bitAt key c = bitAt cand c := getD_of_take_eq hx hlt
                  rw [hkb, hcb] at h1
                  simp at h1
                simp [lookupB_some, stepBest_mk, hg, hm, hkb,
                  -List.getD_eq_getElem?_getD, htk]
              · -- insertion and key both go to the one child
                rcases hok : lookupB o key with _ | ⟨rc, ru⟩
                · by_cases hm : key.take cidr = cand.take cidr
                  · cases q <;>
                      simp [lookupB_some, stepBest_mk, hg, hm, hkb, hok, hso,
                        Nat.le_of_lt hlt]
                  · cases q <;>
                      simp [lookupB_some, stepBest_mk, hg, hm, hkb, hok, hso,
                        -List.getD_eq_getElem?_getD, htk]
                · have hv : ∃ v, stepBest key (some (rc, ru)) (⟨cand, cidr, p⟩ : Entry) =
                      some v := by
                    rw [stepBest_mk]
                    by_cases hm : key.take cidr = cand.take cidr
                    · rw [if_pos hm]
                      dsimp only
                      by_cases hle : rc ≤ cidr
                      · exact ⟨_, by rw [if_pos hle]⟩
                      · exact ⟨_, by rw [if_neg hle]⟩
                    · exact ⟨_, by rw [if_neg hm]⟩
                  obtain ⟨v, hv⟩ := hv
                  simp [lookupB_some, hg, hkb, hok, hso, hv,
                    -List.getD_eq_getElem?_getD, htk]
          · -- the old root does not match: nothing on this path matches
            have hm : ¬ key.take cidr = cand.take cidr := by
              intro hx
              exact hg ((take_eq_mono hx (Nat.le_of_lt hlt)).trans htk.symm)
            have hg2 : ¬ key.take c = cand.take c := fun hx => hg (hx.trans htk.symm)
            cases hcb : bitAt cand c <;>
              simp [lookupB_some, stepBest_mk, hg, hg2, hm, -List.getD_eq_getElem?_getD, htk]
        · -- genuine divergence: the ownerless fork
          rw [if_neg hc2]
          have hltc : co < c := by omega
          have hltd : co < cidr := by omega
          have hfd : co = firstDiff b cand := by
            rcases Nat.le_total (min c cidr) (firstDiff b cand) with h2 | h2
            · have h3 := Nat.min_eq_left h2
              have h4 := Nat.min_le_left c cidr
              have h5 := Nat.min_le_right c cidr
              omega
            · exact Nat.min_eq_right h2
          have hblen : co < b.length := by omega
          have hclen : co < cand.length := by omega
          have htk : b.take co = cand.take co := by
            rw [hfd]
            exact take_fd b cand
          have hne : ¬ bitAt b co = bitAt cand co := by
            rw [bitAt_eq, bitAt_eq]
            rw [hfd] at hblen hclen ⊢
            exact fd_ne b cand hblen hclen
          have hcolen : co ≤ cand.length := by omega
          have hftake : (maskAddr cand co).take co = cand.take co :=
            maskAddr_take hcolen (Nat.le_refl co)
          by_cases hgf : key.take co = cand.take co
          · have hgf2 : key.take co = (maskAddr cand co).take co := hgf.trans hftake.symm
            cases hcb : bitAt cand co
            · have hbold : bitAt b co = true := by
                cases hbv : bitAt b co with
                | false =>
                  rw [hbv, hcb] at hne
                  exact absurd rfl hne
                | true => rfl
              cases hkk : bitAt key co
              · -- key goes to the candidate leaf side
                have hold2 : lookupB (some (.mk b c q z o)) key = none := by
                  by_cases hg : key.take c = b.take c
                  · have h1 : bitAt key co = bitAt b co := getD_of_take_eq hg hltc
                    rw [hkk, hbold] at h1
                    simp at h1
                  · exact lookupB_none_guard hg
                by_cases hm : key.take cidr = cand.take cidr <;>
                  simp [lookupB_some, stepBest_mk, hgf2, hkk, hold2, hm, lookupB,
                    -List.getD_eq_getElem?_getD, htk]
              · -- key goes to the old subtree side
                have hm : ¬ key.take cidr = cand.take cidr := by
                  intro hx
                  have h1 : bitAt key co = bitAt cand co := getD_of_take_eq hx hltd
                  rw [hkk, hcb] at h1
                  simp at h1
                rcases hold2 : lookupB (some (.mk b c q z o)) key with _ | ⟨rc, ru⟩ <;>
                  simp [lookupB_some, stepBest_mk, hgf2, hkk, hold2, hm,
                    -List.getD_eq_getElem?_getD, htk]
            · have hbold : bitAt b co = false := by
                cases hbv : bitAt b co with
                | true =>
                  rw [hbv, hcb] at hne
                  exact absurd rfl hne
                | false => rfl
              cases hkk : bitAt key co
              · -- key goes to the old subtree side
                have hm : ¬ key.take cidr = cand.take cidr := by
                  intro hx
                  have h1 : bitAt key co = bitAt cand co := getD_of_take_eq hx hltd
                  rw [hkk, hcb] at h1
                  simp at h1
                rcases hold2 : lookupB (some (.mk b c q z o)) key with _ | ⟨rc, ru⟩ <;>
                  simp [lookupB_some, stepBest_mk, hgf2, hkk, hold2, hm,
                    -List.getD_eq_getElem?_getD, htk]
              · -- key goes to the candidate leaf side
                have hold2 : lookupB (some (.mk b c q z o)) key = none := by
                  by_cases hg : key.take c = b.take c
                  · have h1 : bitAt key co = bitAt b co := getD_of_take_eq hg hltc
                    rw [hkk, hbold] at h1
                    simp at h1
                  · exact lookupB_none_guard hg
                by_cases hm : key.take cidr = cand.take cidr <;>
                  simp [lookupB_some, stepBest_mk, hgf2, hkk, hold2, hm, lookupB,
                    -List.getD_eq_getElem?_getD, htk]
          · -- the fork does not match the key: nothing changes
            have hgf2 : ¬ key.take co = (maskAddr cand co).take co := by
              intro hx
              exact hgf (hx.trans hftake)
            have hold2 : lookupB (some (.mk b c q z o)) key = none := by
              by_cases hg : key.take c = b.take c
              · exact absurd ((take_eq_mono hg (Nat.le_of_lt hltc)).trans htk) hgf
              · exact lookupB_none_guard hg
            have hm : ¬ key.take cidr = cand.take cidr := by
              intro hx
              exact hgf (take_eq_mono hx (Nat.le_of_lt hltd))
            cases hcb : bitAt cand co <;>
              simp [lookupB_some, stepBest_mk, hgf2, hold2, hm, -List.getD_eq_getElem?_getD, htk]

/-! ## Building a trie from an insertion sequence -/

theorem insertT_wf {w : Nat} (e : Entry) (hbl : e.bits.length = w) (hcw : e.cidr ≤ w) :
    ∀ t, WFopt w t → WFopt w (insertT t e.bits e.cidr e.peer) := by
  intro t hwf
  have hcl : (maskAddr e.bits e.cidr).length = w := by rw [maskAddr_length, hbl]
  have hcm : maskAddr (maskAddr e.bits e.cidr) e.cidr = maskAddr e.bits e.cidr :=
    maskAddr_idem _ _
  cases t with
  | none =>
    rw [insertT, show ins none (maskAddr e.bits e.cidr) e.cidr e.peer =
      some (.mk (maskAddr e.bits e.cidr) e.cidr (some e.peer) none none) from by simp [ins]]
    exact WF.mk hcl hcw hcm trivial trivial (fun m hm => nomatch hm) (fun m hm => nomatch hm)
  | some n =>
    obtain ⟨m1, hm1⟩ := ins_some n (maskAddr e.bits e.cidr) e.cidr e.peer
    rw [insertT, hm1]
    exact (ins_wf _ _ _ hcl hcw hcm n hwf m1 hm1).1

theorem insertT_step {w : Nat} (e : Entry) (key : Addr) (hbl : e.bits.length = w)
    (hcw : e.cidr ≤ w) :
    ∀ t, WFopt w t →
      lookupB (insertT t e.bits e.cidr e.peer) key = stepBest key (lookupB t key) e := by
  intro t hwf
  obtain ⟨bits, cidr, pr⟩ := e
  simp only at hbl hcw
  have hcl : (maskAddr bits cidr).length = w := by rw [maskAddr_length, hbl]
  have hcm : maskAddr (maskAddr bits cidr) cidr = maskAddr bits cidr := maskAddr_idem _ _
  have hct : (maskAddr bits cidr).take cidr = bits.take cidr :=
    maskAddr_take (by omega) (Nat.le_refl cidr)
  have hstep : ∀ best, stepBest key best (⟨maskAddr bits cidr, cidr, pr⟩ : Entry) =
      stepBest key best (⟨bits, cidr, pr⟩ : Entry) := by
    intro best
    rw [stepBest_mk, stepBest_mk, hct]
  rw [insertT]
  cases t with
  | none => rw [ins_step_none, hstep]
  | some n => rw [ins_step _ _ _ key hcl hcw hcm n hwf, hstep]

theorem buildT_aux {w : Nat} (key : Addr) :
    ∀ (es : List Entry) (t : Option Node), (∀ e ∈ es, e.bits.length = w ∧ e.cidr ≤ w) →
      WFopt w t →
      lookupB (es.foldl (fun t1 e => insertT t1 e.bits e.cidr e.peer) t) key =
        es.foldl (stepBest key) (lookupB t key)
  | [], _, _, _ => rfl
  | e :: es, t, hes, hwf => by
    obtain ⟨h1, h2⟩ := hes e (List.mem_cons_self e es)
    rw [List.foldl_cons, List.foldl_cons,
      buildT_aux key es (insertT t e.bits e.cidr e.peer)
        (fun x hx => hes x (List.mem_cons_of_mem e hx)) (insertT_wf e h1 h2 t hwf),
      insertT_step e key h1 h2 t hwf]

theorem buildT_wf {w : Nat} :
    ∀ (es : List Entry) (t : Option Node), (∀ e ∈ es, e.bits.length = w ∧ e.cidr ≤ w) →
      WFopt w t →
      WFopt w (es.foldl (fun t1 e => insertT t1 e.bits e.cidr e.peer) t)
  | [], _, _, hwf => hwf
  | e :: es, t, hes, hwf => by
    obtain ⟨h1, h2⟩ := hes e (List.mem_cons_self e es)
    rw [List.foldl_cons]
    exact buildT_wf es _ (fun x hx => hes x (List.mem_cons_of_mem e hx))
      (insertT_wf e h1 h2 t hwf)

/-- the lookup on a built trie is exactly the brute-force scan of the
insertion sequence -/
theorem buildT_lookup {w : Nat} (es : List Entry) (key : Addr)
    (hes : ∀ e ∈ es, e.bits.length = w ∧ e.cidr ≤ w) :
    lookupB (buildT es) key = bruteBest es key := by
  rw [buildT, bruteBest]
  have h := buildT_aux key es none hes trivial
  rw [show lookupB (none : Option Node) key = none from by simp [lookupB]] at h
  exact h

theorem WF_buildT {w : Nat} (es : List Entry)
    (hes : ∀ e ∈ es, e.bits.length = w ∧ e.cidr ≤ w) : WFopt w (buildT es) :=
  buildT_wf es none hes trivial

/-! ## Masking before insertion (spec section 4.2 masking idempotence) -/

theorem insertT_masked (t : Option Node) (bits : Addr) (cidr : Nat) (p : Peer) :
    insertT t bits cidr p = insertT t (maskAddr bits cidr) cidr p := by
  rw [insertT, insertT, maskAddr_idem]

/-! ## The horrible list: order invariant and the scan step -/

/-- the horrible list is kept in weakly decreasing popcount order -/
def HSorted (l : List HNode) : Prop :=
  List.Sorted (fun a b2 => hCidr b2 ≤ hCidr a) l

theorem hMatch_value (x : HNode) (v : Peer) (key : Addr) :
    hMatch { x with value := v } key = hMatch x key := rfl

theorem hCidr_value (x : HNode) (v : Peer) : hCidr { x with value := v } = hCidr x := rfl

theorem hIns_masks (n : HNode) : ∀ (l : List HNode) (x : HNode), x ∈ hIns n l →
    x.mask = n.mask ∨ ∃ y ∈ l, x.mask = y.mask
  | [], x, hx => by
    simp only [hIns, List.mem_singleton] at hx
    subst hx
    exact Or.inl rfl
  | other :: rest, x, hx => by
    simp only [hIns] at hx
    by_cases hd : other.mask = n.mask ∧ other.ip = n.ip
    · rw [if_pos hd] at hx
      rcases List.mem_cons.mp hx with hx | hx
      · subst hx
        exact Or.inl hd.1
      · exact Or.inr ⟨x, List.mem_cons_of_mem other hx, rfl⟩
    · rw [if_neg hd] at hx
      by_cases hc : hCidr other ≤ hCidr n
      · rw [if_pos hc] at hx
        rcases List.mem_cons.mp hx with hx | hx
        · subst hx
          exact Or.inl rfl
        · exact Or.inr ⟨x, hx, rfl⟩
      · rw [if_neg hc] at hx
        rcases List.mem_cons.mp hx with hx | hx
        · subst hx
          exact Or.inr ⟨x, List.mem_cons_self x rest, rfl⟩
        · rcases hIns_masks n rest x hx with h | ⟨y, hy, hxy⟩
          · exact Or.inl h
          · exact Or.inr ⟨y, List.mem_cons_of_mem other hy, hxy⟩

theorem hIns_sorted (n : HNode) : ∀ l : List HNode, HSorted l → HSorted (hIns n l)
  | [], _ => by
    simp only [hIns, HSorted]
    exact List.sorted_singleton _
  | other :: rest, hs => by
    simp only [hIns]
    have hhead := (List.sorted_cons.mp hs).1
    have htail := (List.sorted_cons.mp hs).2
    by_cases hd : other.mask = n.mask ∧ other.ip = n.ip
    · rw [if_pos hd]
      refine List.sorted_cons.mpr ⟨?_, htail⟩
      intro x hx
      rw [hCidr_value]
      exact hhead x hx
    · rw [if_neg hd]
      by_cases hc : hCidr other ≤ hCidr n
      · rw [if_pos hc]
        refine List.sorted_cons.mpr ⟨?_, hs⟩
        intro x hx
        rcases List.mem_cons.mp hx with hx | hx
        · subst hx
          exact hc
        · exact le_trans (hhead x hx) hc
      · rw [if_neg hc]
        refine List.sorted_cons.mpr ⟨?_, hIns_sorted n rest htail⟩
        intro x hx
        rcases hIns_masks n rest x hx with h | ⟨y, hy, hxy⟩
        · have hxn : hCidr x = hCidr n := by rw [hCidr, hCidr, h]
          omega
        · have hxy2 : hCidr x = hCidr y := by rw [hCidr, hCidr, hxy]
          have := hhead y hy
          omega

theorem hLookupB_mem (key : Addr) : ∀ (l : List HNode) (r : Nat × Peer),
    hLookupB l key = some r → ∃ y ∈ l, r.1 = hCidr y
  | [], r, h => by simp [hLookupB] at h
  | x :: rest, r, h => by
    simp only [hLookupB] at h
    by_cases hm : hMatch x key
    · rw [if_pos hm] at h
      have := Option.some.inj h
      exact ⟨x, List.mem_cons_self x rest, by rw [← this]⟩
    · rw [if_neg hm] at h
      obtain ⟨y, hy, hr⟩ := hLookupB_mem key rest r h
      exact ⟨y, List.mem_cons_of_mem x hy, hr⟩

theorem hIns_step (key : Addr) (n : HNode) :
    ∀ l : List HNode, HSorted l →
      hLookupB (hIns n l) key =
        (if hMatch n key then
          match hLookupB l key with
          | none => some (hCidr n, n.value)
          | some (c0, u) => if c0 ≤ hCidr n then some (hCidr n, n.value) else some (c0, u)
        else hLookupB l key)
  | [], _ => by
    cases hm : hMatch n key <;> simp [hIns, hLookupB, hm]
  | other :: rest, hs => by
    have hhead := (List.sorted_cons.mp hs).1
    have htail := (List.sorted_cons.mp hs).2
    simp only [hIns]
    by_cases hd : other.mask = n.mask ∧ other.ip = n.ip
    · rw [if_pos hd]
      have hmeq : hMatch other key = hMatch n key := by
        rw [hMatch, hMatch, hd.1, hd.2]
      have hceq : hCidr other = hCidr n := by rw [hCidr, hCidr, hd.1]
      cases hm : hMatch n key
      · rw [if_neg (by simp [hm])]
        simp only [hLookupB, hMatch_value, hmeq, hm, Bool.false_eq_true, if_false]
      · rw [if_pos (by simp [hm])]
        simp [hLookupB, hMatch_value, hmeq, hm, hCidr_value, hceq]
    · rw [if_neg hd]
      by_cases hc : hCidr other ≤ hCidr n
      · rw [if_pos hc]
        cases hm : hMatch n key
        · rw [if_neg (by simp [hm])]
          simp only [hLookupB, hm, Bool.false_eq_true, if_false]
        · rw [if_pos (by simp [hm])]
          have hL : hLookupB (n :: other :: rest) key = some (hCidr n, n.value) := by
            simp only [hLookupB, hm, if_true]
          rw [hL]
          rcases hrest : hLookupB (other :: rest) key with _ | ⟨c0, u⟩
          · rfl
          · obtain ⟨y, hy, hr⟩ := hLookupB_mem key (other :: rest) (c0, u) hrest
            have hr2 : c0 = hCidr y := hr
            have hbound : c0 ≤ hCidr other := by
              rcases List.mem_cons.mp hy with hy | hy
              · rw [hr2, hy]
              · rw [hr2]
                exact hhead y hy
            dsimp only
            rw [if_pos (le_trans hbound hc)]
      · rw [if_neg hc]
        cases hmo : hMatch other key
        · simp only [hLookupB, hmo, Bool.false_eq_true, if_false]
          exact hIns_step key n rest htail
        · simp only [hLookupB, hmo, if_true]
          cases hm : hMatch n key
          · rw [if_neg (by simp [hm])]
          · rw [if_pos (by simp [hm])]
            rw [if_neg (by omega)]

/-! ## The horrible lookup equals the brute-force scan -/

theorem hCidr_ent {w : Nat} (e : Entry) (hcw : e.cidr ≤ w) :
    hCidr ⟨hAnd e.bits (maskOf w e.cidr), maskOf w e.cidr, e.peer⟩ = e.cidr :=
  count_maskOf hcw

theorem hMatch_ent {w : Nat} (e : Entry) (key : Addr) (hkl : key.length = w)
    (hbl : e.bits.length = w) (hcw : e.cidr ≤ w) :
    (hMatch ⟨hAnd e.bits (maskOf w e.cidr), maskOf w e.cidr, e.peer⟩ key = true) ↔
      key.take e.cidr = e.bits.take e.cidr := by
  have h1 : hAnd key (maskOf w e.cidr) = maskAddr key e.cidr := by
    rw [← hkl]
    exact hAnd_maskOf key e.cidr (by omega)
  have h2 : hAnd e.bits (maskOf w e.cidr) = maskAddr e.bits e.cidr := by
    rw [← hbl]
    exact hAnd_maskOf e.bits e.cidr (by omega)
  show (hAnd key (maskOf w e.cidr) == hAnd e.bits (maskOf w e.cidr)) = true ↔ _
  rw [h1, h2, beq_iff_eq]
  exact maskAddr_eq_iff (by rw [hkl, hbl]) e.cidr

theorem hInsert_step {w : Nat} (e : Entry) (key : Addr) (hkl : key.length = w)
    (hbl : e.bits.length = w) (hcw : e.cidr ≤ w) (l : List HNode) (hs : HSorted l) :
    hLookupB (hInsert w l e) key = stepBest key (hLookupB l key) e := by
  obtain ⟨bits, cidr, pr⟩ := e
  simp only at hbl hcw
  rw [hInsert, hIns_step key _ l hs, stepBest_mk]
  by_cases hcnd : key.take cidr = bits.take cidr
  · rw [if_pos ((hMatch_ent ⟨bits, cidr, pr⟩ key hkl hbl hcw).mpr hcnd), if_pos hcnd]
    rcases hLookupB l key with _ | ⟨c0, u⟩
    · rw [hCidr_ent ⟨bits, cidr, pr⟩ hcw]
    · dsimp only
      rw [hCidr_ent ⟨bits, cidr, pr⟩ hcw]
  · rw [if_neg hcnd]
    rw [if_neg (fun hx => hcnd ((hMatch_ent ⟨bits, cidr, pr⟩ key hkl hbl hcw).mp hx))]

theorem hInsert_sorted {w : Nat} (e : Entry) (l : List HNode) (hs : HSorted l) :
    HSorted (hInsert w l e) := by
  rw [hInsert]
  exact hIns_sorted _ l hs

theorem hBuild_aux {w : Nat} (key : Addr) (hkl : key.length = w) :
    ∀ (es : List Entry) (l : List HNode), (∀ e ∈ es, e.bits.length = w ∧ e.cidr ≤ w) →
      HSorted l →
      hLookupB (es.foldl (hInsert w) l) key = es.foldl (stepBest key) (hLookupB l key)
  | [], _, _, _ => rfl
  | e :: es, l, hes, hs => by
    obtain ⟨h1, h2⟩ := hes e (List.mem_cons_self e es)
    rw [List.foldl_cons, List.foldl_cons,
      hBuild_aux key hkl es (hInsert w l e) (fun x hx => hes x (List.mem_cons_of_mem e hx))
        (hInsert_sorted e l hs),
      hInsert_step e key hkl h1 h2 l hs]

/-- the horrible first-match lookup on the ordered list equals the
brute-force scan of the insertion sequence -/
theorem hBuild_lookup {w : Nat} (es : List Entry) (key : Addr) (hkl : key.length = w)
    (hes : ∀ e ∈ es, e.bits.length = w ∧ e.cidr ≤ w) :
    hLookupB (hBuild w es) key = bruteBest es key := by
  rw [hBuild, bruteBest]
  have h := hBuild_aux key hkl es [] hes (by simp [HSorted])
  rw [show hLookupB [] key = none from rfl] at h
  exact h

/-! ## Removal by peer: entries are filtered, well-formedness survives -/

theorem remove_none (p : Peer) : removeByPeer p none = none := by simp [removeByPeer]

theorem entries_remove (p : Peer) : ∀ t : Option Node,
    entriesOpt (removeByPeer p t) = (entriesOpt t).filter (fun e => decide (¬ e.peer = p))
  | none => by simp [removeByPeer, entriesOpt]
  | some n => by
    induction n using node_ind with
    | h b c q z o ihz iho =>
      have hz : entriesOpt (removeByPeer p z) =
          (entriesOpt z).filter (fun e => decide (¬ e.peer = p)) := by
        cases z with
        | none => simp [removeByPeer, entriesOpt]
        | some mz => exact ihz mz rfl
      have ho : entriesOpt (removeByPeer p o) =
          (entriesOpt o).filter (fun e => decide (¬ e.peer = p)) := by
        cases o with
        | none => simp [removeByPeer, entriesOpt]
        | some mo => exact iho mo rfl
      have hsplice : entriesOpt (match removeByPeer p z, removeByPeer p o with
          | none, none => none
          | some m, none => some m
          | none, some m => some m
          | some m0, some m1 => some (.mk b c none (some m0) (some m1))) =
          (entriesOpt z).filter (fun e => decide (¬ e.peer = p)) ++
            (entriesOpt o).filter (fun e => decide (¬ e.peer = p)) := by
        rcases hz1 : removeByPeer p z with _ | m0 <;>
          rcases ho1 : removeByPeer p o with _ | m1 <;>
            (rw [← hz, ← ho]
             simp [entriesOpt, ownEntry, hz1, ho1])
      simp only [removeByPeer, entriesOpt, List.filter_append]
      cases hq : q with
      | none =>
        rw [if_neg (show ¬ (none : Option Peer) = some p by simp)]
        rw [show (ownEntry b c none).filter (fun e => decide (¬ e.peer = p)) = []
          from by simp [ownEntry]]
        rw [List.nil_append]
        exact hsplice
      | some u =>
        by_cases hu : u = p
        · subst hu
          rw [if_pos rfl]
          rw [show (ownEntry b c (some u)).filter (fun e => decide (¬ e.peer = u)) = []
            from by simp [ownEntry]]
          rw [List.nil_append]
          exact hsplice
        · rw [if_neg (by simp [hu])]
          rw [show (ownEntry b c (some u)).filter (fun e => decide (¬ e.peer = p)) =
            [⟨b, c, u⟩] from by simp [ownEntry, hu]]
          simp only [entriesOpt, ownEntry, hz, ho, List.singleton_append]

theorem remove_wf {w : Nat} (p : Peer) : ∀ n : Node, WF w n →
    removeByPeer p (some n) = none ∨
      ∃ m, removeByPeer p (some n) = some m ∧ WF w m ∧ n.cidr ≤ m.cidr ∧
        m.bits.take n.cidr = n.bits.take n.cidr := by
  intro n
  induction n using node_ind with
  | h b c q z o ihz iho =>
    intro hwf
    cases hwf with
    | mk hlen hc hmask hcz hco hwz hwo =>
      have hzfact : removeByPeer p z = none ∨ ∃ m, removeByPeer p z = some m ∧ WF w m ∧
          childOK b c false (some m) := by
        cases z with
        | none => exact Or.inl (remove_none p)
        | some mz =>
          rcases ihz mz rfl (hwz mz rfl) with h | ⟨m, hm, hwfm, hcm, htm⟩
          · exact Or.inl h
          · refine Or.inr ⟨m, hm, hwfm, ?_⟩
            obtain ⟨h1, h2, h3⟩ := childOK_some.mp hcz
            rw [childOK_some]
            refine ⟨Nat.lt_of_lt_of_le h1 hcm, (take_eq_mono htm (Nat.le_of_lt h1)).trans h2, ?_⟩
            rw [bitAt_eq, getD_of_take_eq htm h1, ← bitAt_eq]
            exact h3
      have hofact : removeByPeer p o = none ∨ ∃ m, removeByPeer p o = some m ∧ WF w m ∧
          childOK b c true (some m) := by
        cases o with
        | none => exact Or.inl (remove_none p)
        | some mo =>
          rcases iho mo rfl (hwo mo rfl) with h | ⟨m, hm, hwfm, hcm, htm⟩
          · exact Or.inl h
          · refine Or.inr ⟨m, hm, hwfm, ?_⟩
            obtain ⟨h1, h2, h3⟩ := childOK_some.mp hco
            rw [childOK_some]
            refine ⟨Nat.lt_of_lt_of_le h1 hcm, (take_eq_mono htm (Nat.le_of_lt h1)).trans h2, ?_⟩
            rw [bitAt_eq, getD_of_take_eq htm h1, ← bitAt_eq]
            exact h3
      simp only [removeByPeer]
      rcases hzfact with hz1 | ⟨mz1, hz1, hwfz1, hokz1⟩ <;>
        rcases hofact with ho1 | ⟨mo1, ho1, hwfo1, hoko1⟩ <;> rw [hz1, ho1]
      · -- both children vanish
        cases hq : q with
        | none =>
          rw [if_neg (show ¬ (none : Option Peer) = some p by simp)]
          exact Or.inl rfl
        | some u =>
          by_cases hu : u = p
          · subst hu
            rw [if_pos rfl]
            exact Or.inl rfl
          · rw [if_neg (by simp [hu])]
            refine Or.inr ⟨_, rfl, ?_, Nat.le_refl _, rfl⟩
            exact WF.mk hlen hc hmask trivial trivial
              (fun m hm => nomatch hm) (fun m hm => nomatch hm)
      · -- only the one-side child survives
        cases hq : q with
        | none =>
          rw [if_neg (show ¬ (none : Option Peer) = some p by simp)]
          refine Or.inr ⟨mo1, rfl, hwfo1, ?_, ?_⟩
          · exact Nat.le_of_lt (childOK_some.mp hoko1).1
          · exact take_eq_mono (childOK_some.mp hoko1).2.1 (Nat.le_refl c)
        | some u =>
          by_cases hu : u = p
          · subst hu
            rw [if_pos rfl]
            refine Or.inr ⟨mo1, rfl, hwfo1, ?_, ?_⟩
            · exact Nat.le_of_lt (childOK_some.mp hoko1).1
            · exact take_eq_mono (childOK_some.mp hoko1).2.1 (Nat.le_refl c)
          · rw [if_neg (by simp [hu])]
            refine Or.inr ⟨_, rfl, ?_, Nat.le_refl _, rfl⟩
            exact WF.mk hlen hc hmask trivial hoko1
              (fun m hm => nomatch hm) (fun m hm => Option.some.inj hm ▸ hwfo1)
      · -- only the zero-side child survives
        cases hq : q with
        | none =>
          rw [if_neg (show ¬ (none : Option Peer) = some p by simp)]
          refine Or.inr ⟨mz1, rfl, hwfz1, ?_, ?_⟩
          · exact Nat.le_of_lt (childOK_some.mp hokz1).1
          · exact take_eq_mono (childOK_some.mp hokz1).2.1 (Nat.le_refl c)
        | some u =>
          by_cases hu : u = p
          · subst hu
            rw [if_pos rfl]
            refine Or.inr ⟨mz1, rfl, hwfz1, ?_, ?_⟩
            · exact Nat.le_of_lt (childOK_some.mp hokz1).1
            · exact take_eq_mono (childOK_some.mp hokz1).2.1 (Nat.le_refl c)
          · rw [if_neg (by simp [hu])]
            refine Or.inr ⟨_, rfl, ?_, Nat.le_refl _, rfl⟩
            exact WF.mk hlen hc hmask hokz1 trivial
              (fun m hm => Option.some.inj hm ▸ hwfz1) (fun m hm => nomatch hm)
      · -- both children survive
        cases hq : q with
        | none =>
          rw [if_neg (show ¬ (none : Option Peer) = some p by simp)]
          refine Or.inr ⟨_, rfl, ?_, Nat.le_refl _, rfl⟩
          exact WF.mk hlen hc hmask hokz1 hoko1
            (fun m hm => Option.some.inj hm ▸ hwfz1) (fun m hm => Option.some.inj hm ▸ hwfo1)
        | some u =>
          by_cases hu : u = p
          · subst hu
            rw [if_pos rfl]
            refine Or.inr ⟨_, rfl, ?_, Nat.le_refl _, rfl⟩
            exact WF.mk hlen hc hmask hokz1 hoko1
              (fun m hm => Option.some.inj hm ▸ hwfz1)
              (fun m hm => Option.some.inj hm ▸ hwfo1)
          · rw [if_neg (by simp [hu])]
            refine Or.inr ⟨_, rfl, ?_, Nat.le_refl _, rfl⟩
            exact WF.mk hlen hc hmask hokz1 hoko1
              (fun m hm => Option.some.inj hm ▸ hwfz1)
              (fun m hm => Option.some.inj hm ▸ hwfo1)

/-! ## Lookup after removal -/

theorem lookupB_sound_opt {w : Nat} {t : Option Node} (hwf : WFopt w t) {key : Addr}
    {r : Nat × Peer} (h : lookupB t key = some r) :
    ∃ b1, (⟨b1, r.1, r.2⟩ : Entry) ∈ entriesOpt t ∧ key.take r.1 = b1.take r.1 := by
  cases t with
  | none => simp [lookupB] at h
  | some n => exact lookupB_sound n hwf key r h

theorem lookupB_complete_opt {w : Nat} {t : Option Node} (hwf : WFopt w t) {key : Addr}
    {e : Entry} (he : e ∈ entriesOpt t) (hm : key.take e.cidr = e.bits.take e.cidr) :
    ∃ r, lookupB t key = some r ∧ e.cidr ≤ r.1 := by
  cases t with
  | none => simp [entriesOpt] at he
  | some n => exact lookupB_complete n hwf key e he hm

theorem lookupB_max_opt {w : Nat} {t : Option Node} (hwf : WFopt w t) {key : Addr}
    {r : Nat × Peer} (h : lookupB t key = some r) {e : Entry} (he : e ∈ entriesOpt t)
    (hm : key.take e.cidr = e.bits.take e.cidr) : e.cidr ≤ r.1 := by
  cases t with
  | none => simp [lookupB] at h
  | some n => exact lookupB_max n hwf key r h e he hm

theorem entries_facts_opt {w : Nat} {t : Option Node} (hwf : WFopt w t) :
    ∀ e ∈ entriesOpt t, e.bits.length = w ∧ e.cidr ≤ w ∧ maskAddr e.bits e.cidr = e.bits := by
  cases t with
  | none => simp [entriesOpt]
  | some n => exact entries_facts n hwf

theorem entries_keys_nodup_opt {w : Nat} {t : Option Node} (hwf : WFopt w t) :
    ((entriesOpt t).map (fun e => (e.bits, e.cidr))).Nodup := by
  cases t with
  | none => simp [entriesOpt]
  | some n => exact entries_keys_nodup n hwf

/-- two entries of a well-formed trie matching the same key with the same
cidr are the same entry -/
theorem entries_match_unique {w : Nat} {t : Option Node} (hwf : WFopt w t) {key : Addr}
    {e1 e2 : Entry} (h1 : e1 ∈ entriesOpt t) (h2 : e2 ∈ entriesOpt t)
    (hc : e1.cidr = e2.cidr) (hm1 : key.take e1.cidr = e1.bits.take e1.cidr)
    (hm2 : key.take e2.cidr = e2.bits.take e2.cidr) : e1 = e2 := by
  obtain ⟨hl1, hw1, hmask1⟩ := entries_facts_opt hwf e1 h1
  obtain ⟨hl2, hw2, hmask2⟩ := entries_facts_opt hwf e2 h2
  have htk : e1.bits.take e1.cidr = e2.bits.take e1.cidr := by
    rw [← hm1]
    rw [hc, hm2]
  have hb : e1.bits = e2.bits := by
    rw [← hmask1, ← hmask2, ← hc]
    exact (maskAddr_eq_iff (by rw [hl1, hl2]) e1.cidr).mpr htk
  exact List.inj_on_of_nodup_map (entries_keys_nodup_opt hwf) h1 h2 (by rw [hb, hc])

theorem remove_wf_opt {w : Nat} (p : Peer) {t : Option Node} (hwf : WFopt w t) :
    WFopt w (removeByPeer p t) := by
  cases t with
  | none => rw [remove_none]; trivial
  | some n =>
    rcases remove_wf p n hwf with h | ⟨m, hm, hwfm, _, _⟩
    · rw [h]; trivial
    · rw [hm]; exact hwfm

/-- after remove_all no lookup returns the removed peer, and lookups whose
best match was owned by another peer are unchanged -/
theorem remove_lookup {w : Nat} (p : Peer) (t : Option Node) (key : Addr)
    (hwf : WFopt w t) :
    (∀ c0, ¬ lookupB (removeByPeer p t) key = some (c0, p)) ∧
    (∀ c0 u, ¬ u = p → lookupB t key = some (c0, u) →
      lookupB (removeByPeer p t) key = some (c0, u)) := by
  have hwfr : WFopt w (removeByPeer p t) := remove_wf_opt p hwf
  constructor
  · intro c0 h
    obtain ⟨b1, hmem, _⟩ := lookupB_sound_opt hwfr h
    rw [entries_remove] at hmem
    have := (List.mem_filter.mp hmem).2
    simp at this
  · intro c0 u hu h
    obtain ⟨b1, hmem, hmt⟩ := lookupB_sound_opt hwf h
    have hmem2 : (⟨b1, c0, u⟩ : Entry) ∈ entriesOpt (removeByPeer p t) := by
      rw [entries_remove]
      exact List.mem_filter.mpr ⟨hmem, by simpa using hu⟩
    obtain ⟨r, hr, hcr⟩ := lookupB_complete_opt hwfr hmem2 hmt
    obtain ⟨b2, hmem3, hmt3⟩ := lookupB_sound_opt hwfr hr
    have hmem4 : (⟨b2, r.1, r.2⟩ : Entry) ∈ entriesOpt t := by
      rw [entries_remove] at hmem3
      exact (List.mem_filter.mp hmem3).1
    have hle : r.1 ≤ c0 := lookupB_max_opt hwf h hmem4 hmt3
    have hcr2 : c0 ≤ r.1 := hcr
    have hceq : c0 = r.1 := by omega
    have hequ : (⟨b1, c0, u⟩ : Entry) = ⟨b2, r.1, r.2⟩ :=
      entries_match_unique hwf hmem hmem4 hceq hmt hmt3
    have hu2 : u = r.2 := congrArg Entry.peer hequ
    rw [hr, hceq, hu2]

/-! ## Replacement: inserting over an existing key swaps the owner in
place, adding no node -/

theorem countNodes_nodesList : ∀ t : Option Node, countNodes t = (nodesList t).length
  | none => by simp [countNodes, nodesList]
  | some (.mk b c q z o) => by
    simp only [countNodes, nodesList, List.length_cons, List.length_append,
      countNodes_nodesList z, countNodes_nodesList o]
    omega

theorem ins_replace {w : Nat} (p : Peer) : ∀ n : Node, WF w n →
    ∀ (b0 : Addr) (c0 : Nat) (q0 : Peer), (⟨b0, c0, q0⟩ : Entry) ∈ entriesOpt (some n) →
      ∀ m1, ins (some n) b0 c0 p = some m1 →
        nodesList (some m1) = nodesList (some n) ∧
          (⟨b0, c0, p⟩ : Entry) ∈ entriesOpt (some m1) := by
  intro n
  induction n using node_ind with
  | h b c q z o ihz iho =>
    intro hwf b0 c0 q0 he m1 hres
    cases hwf with
    | mk hlen hc hmask hcz hco hwz hwo =>
      simp only [entriesOpt, List.mem_append] at he
      simp only [ins] at hres
      rcases he with he | he | he
      · -- the entry is the node itself: exact replacement
        cases hq : q with
        | none =>
          rw [hq] at he
          exact absurd he (List.not_mem_nil _)
        | some u =>
          rw [hq] at he
          simp only [ownEntry, List.mem_singleton, Entry.mk.injEq] at he
          obtain ⟨hb0, hc0, _⟩ := he
          subst hb0
          subst hc0
          have hcomm : min (min c0 c0) (firstDiff b0 b0) = c0 := by
            rw [fd_self b0]
            have hl0 : b0.length = w := hlen
            omega
          rw [if_pos hcomm, if_pos hcomm] at hres
          have hm1 := Option.some.inj hres
          subst hm1
          refine ⟨by simp [nodesList], ?_⟩
          simp [entriesOpt, ownEntry]
      · -- the entry lives in the zero-side subtree
        cases z with
        | none => simp [entriesOpt] at he
        | some mz =>
          obtain ⟨h1, h2, h3⟩ := childOK_some.mp hcz
          obtain ⟨hec, het, heg⟩ :=
            entries_child_facts (hwz mz rfl) h1 h2 h3 ⟨b0, c0, q0⟩ he
          simp only at hec het heg
          have hfd : c ≤ firstDiff b b0 :=
            fd_ge b b0 c het.symm (by omega)
          have hcomm : min (min c c0) (firstDiff b b0) = c := by omega
          rw [if_neg (by omega), if_pos hcomm] at hres
          rw [if_neg (by rw [bitAt_eq, heg]; exact Bool.false_ne_true)] at hres
          obtain ⟨mz1, hzr⟩ := ins_some mz b0 c0 p
          rw [hzr] at hres
          have hm1 := Option.some.inj hres
          subst hm1
          obtain ⟨hnl, hment⟩ := ihz mz rfl (hwz mz rfl) b0 c0 q0 he mz1 hzr
          constructor
          · simp only [nodesList, hnl]
          · simp only [entriesOpt, List.mem_append]
            exact Or.inr (Or.inl hment)
      · -- the entry lives in the one-side subtree
        cases o with
        | none => simp [entriesOpt] at he
        | some mo =>
          obtain ⟨h1, h2, h3⟩ := childOK_some.mp hco
          obtain ⟨hec, het, heg⟩ :=
            entries_child_facts (hwo mo rfl) h1 h2 h3 ⟨b0, c0, q0⟩ he
          simp only at hec het heg
          have hfd : c ≤ firstDiff b b0 :=
            fd_ge b b0 c het.symm (by omega)
          have hcomm : min (min c c0) (firstDiff b b0) = c := by omega
          rw [if_neg (by omega), if_pos hcomm] at hres
          rw [if_pos (by rw [bitAt_eq]; exact heg)] at hres
          obtain ⟨mo1, hor⟩ := ins_some mo b0 c0 p
          rw [hor] at hres
          have hm1 := Option.some.inj hres
          subst hm1
          obtain ⟨hnl, hment⟩ := iho mo rfl (hwo mo rfl) b0 c0 q0 he mo1 hor
          constructor
          · simp only [nodesList, hnl]
          · simp only [entriesOpt, List.mem_append]
            exact Or.inr (Or.inr hment)

/-! ## Walking a peer -/

theorem walk_mem (p : Peer) : ∀ (t : Option Node) (b : Addr) (c : Nat),
    (b, c) ∈ walkByPeer t p ↔ (⟨b, c, p⟩ : Entry) ∈ entriesOpt t
  | none, b, c => by simp [walkByPeer, entriesOpt]
  | some n, b, c => by
    induction n using node_ind with
    | h b1 c1 q z o ihz iho =>
      have hz : ((b, c) ∈ walkByPeer z p) ↔ (⟨b, c, p⟩ : Entry) ∈ entriesOpt z := by
        cases z with
        | none => simp [walkByPeer, entriesOpt]
        | some mz => exact ihz mz rfl
      have ho : ((b, c) ∈ walkByPeer o p) ↔ (⟨b, c, p⟩ : Entry) ∈ entriesOpt o := by
        cases o with
        | none => simp [walkByPeer, entriesOpt]
        | some mo => exact iho mo rfl
      simp only [walkByPeer, entriesOpt, List.mem_append]
      rw [hz, ho]
      cases hq : q with
      | none => simp [ownEntry]
      | some u =>
        by_cases hu : u = p
        · subst hu
          simp [ownEntry, Prod.ext_iff, Entry.mk.injEq]
        · rw [if_neg (by simp [hu])]
          simp only [ownEntry, List.mem_singleton, Entry.mk.injEq, List.not_mem_nil,
            false_or]
          constructor
          · intro h
            exact Or.inr h
          · intro h
            rcases h with ⟨_, _, hpu⟩ | h
            · exact absurd hpu.symm hu
            · exact h

theorem walk_sub_nodes (p : Peer) : ∀ t : Option Node, (walkByPeer t p).Sublist (nodesList t)
  | none => by simp [walkByPeer, nodesList]
  | some n => by
    induction n using node_ind with
    | h b c q z o ihz iho =>
      have hz : (walkByPeer z p).Sublist (nodesList z) := by
        cases z with
        | none => simp [walkByPeer, nodesList]
        | some mz => exact ihz mz rfl
      have ho : (walkByPeer o p).Sublist (nodesList o) := by
        cases o with
        | none => simp [walkByPeer, nodesList]
        | some mo => exact iho mo rfl
      simp only [walkByPeer, nodesList]
      by_cases hq : q = some p
      · rw [if_pos hq]
        simpa using (hz.append ho).cons₂ (b, c)
      · rw [if_neg hq]
        simpa using (hz.append ho).cons (b, c)

theorem walk_nodup {w : Nat} {t : Option Node} (hwf : WFopt w t) (p : Peer) :
    (walkByPeer t p).Nodup := by
  cases t with
  | none => simp [walkByPeer]
  | some n => exact (walk_sub_nodes p (some n)).nodup (nodes_nodup n hwf)

theorem walk_masked {w : Nat} {t : Option Node} (hwf : WFopt w t) (p : Peer) (b : Addr)
    (c : Nat) (h : (b, c) ∈ walkByPeer t p) :
    b.length = w ∧ c ≤ w ∧ maskAddr b c = b := by
  have hmem := (walk_mem p t b c).mp h
  exact entries_facts_opt hwf ⟨b, c, p⟩ hmem

/-! ## Allocation failure leaves the trie untouched -/

theorem insE_fail (a1 a2 : Bool) (cand : Addr) (cidr : Nat) (p : Peer) :
    ∀ t : Option Node,
      (insE a1 a2 t cand cidr p).1 = false → (insE a1 a2 t cand cidr p).2 = t
  | none, h => by
    simp only [insE] at h ⊢
    cases a1 with
    | true => simp at h
    | false => simp
  | some (.mk b c q z o), h => by
    simp only [insE] at h ⊢
    by_cases hcc : min (min c cidr) (firstDiff b cand) = cidr
    · rw [if_pos hcc] at h ⊢
      by_cases hc2 : min (min c cidr) (firstDiff b cand) = c
      · rw [if_pos hc2] at h
        simp at h
      · rw [if_neg hc2] at h ⊢
        cases a1 with
        | true => simp at h
        | false => simp
    · rw [if_neg hcc] at h ⊢
      by_cases hc2 : min (min c cidr) (firstDiff b cand) = c
      · rw [if_pos hc2] at h ⊢
        by_cases hb : bitAt cand c
        · rw [if_pos hb] at h ⊢
          simp only at h ⊢
          rw [insE_fail a1 a2 cand cidr p o h]
        · rw [if_neg hb] at h ⊢
          simp only at h ⊢
          rw [insE_fail a1 a2 cand cidr p z h]
      · rw [if_neg hc2] at h ⊢
        cases hgood : a1 && a2 with
        | true =>
          rw [if_pos hgood] at h
          simp at h
        | false => simp

theorem insE_ok (cand : Addr) (cidr : Nat) (p : Peer) :
    ∀ t : Option Node, insE true true t cand cidr p = (true, ins t cand cidr p)
  | none => by simp [insE, ins]
  | some (.mk b c q z o) => by
    simp only [insE, ins]
    by_cases hcc : min (min c cidr) (firstDiff b cand) = cidr
    · rw [if_pos hcc, if_pos hcc]
      by_cases hc2 : min (min c cidr) (firstDiff b cand) = c
      · rw [if_pos hc2, if_pos hc2]
      · rw [if_neg hc2, if_neg hc2]
        simp
    · rw [if_neg hcc, if_neg hcc]
      by_cases hc2 : min (min c cidr) (firstDiff b cand) = c
      · rw [if_pos hc2, if_pos hc2]
        by_cases hb : bitAt cand c
        · rw [if_pos hb, if_pos hb]
          rw [insE_ok cand cidr p o]
        · rw [if_neg hb, if_neg hb]
          rw [insE_ok cand cidr p z]
      · rw [if_neg hc2, if_neg hc2]
        simp

/-! ## Bridging the fuel-bounded evaluators to the original functions -/

theorem insF_eq : ∀ (fuel : Nat) (t : Option Node) (cand : Addr) (cidr : Nat) (p : Peer)
    (r : Option Node), insF fuel t cand cidr p = some r → ins t cand cidr p = r := by
  intro fuel
  induction fuel with
  | zero =>
    intro t cand cidr p r h
    simp [insF] at h
  | succ fuel ih =>
    intro t cand cidr p r h
    cases t with
    | none =>
      simp only [insF] at h
      rw [ins, Option.some.inj h]
    | some n =>
      obtain ⟨b, c, q, z, o⟩ := n
      simp only [ins]
      simp only [insF] at h
      by_cases h1 : min (min c cidr) (firstDiff b cand) = cidr
      · rw [if_pos h1] at h ⊢
        by_cases h2 : min (min c cidr) (firstDiff b cand) = c
        · rw [if_pos h2] at h ⊢
          exact Option.some.inj h
        · rw [if_neg h2] at h ⊢
          by_cases hb : bitAt b cidr
          · rw [if_pos hb] at h ⊢
            exact Option.some.inj h
          · rw [if_neg hb] at h ⊢
            exact Option.some.inj h
      · rw [if_neg h1] at h ⊢
        by_cases h2 : min (min c cidr) (firstDiff b cand) = c
        · rw [if_pos h2] at h ⊢
          by_cases hb : bitAt cand c
          · rw [if_pos hb] at h ⊢
            rcases ho : insF fuel o cand cidr p with _ | r1
            · rw [ho] at h
              simp at h
            · rw [ho] at h
              simp only at h
              rw [ih o cand cidr p r1 ho]
              exact Option.some.inj h
          · rw [if_neg hb] at h ⊢
            rcases hz : insF fuel z cand cidr p with _ | r1
            · rw [hz] at h
              simp at h
            · rw [hz] at h
              simp only at h
              rw [ih z cand cidr p r1 hz]
              exact Option.some.inj h
        · rw [if_neg h2] at h ⊢
          by_cases hb : bitAt cand (min (min c cidr) (firstDiff b cand))
          · rw [if_pos hb] at h ⊢
            exact Option.some.inj h
          · rw [if_neg hb] at h ⊢
            exact Option.some.inj h

theorem buildF_eq (fuel : Nat) : ∀ (es : List Entry) (t0 : Option Node) (t : Option Node),
    es.foldl
      (fun acc e =>
        match acc with
        | none => none
        | some t1 => insF fuel t1 (maskAddr e.bits e.cidr) e.cidr e.peer)
      (some t0) = some t →
    es.foldl (fun t1 e => insertT t1 e.bits e.cidr e.peer) t0 = t := by
  intro es
  induction es with
  | nil =>
    intro t0 t h
    simp at h
    simp [h]
  | cons e es ihe =>
    intro t0 t h
    rw [List.foldl_cons] at h
    simp only at h
    rcases h1 : insF fuel t0 (maskAddr e.bits e.cidr) e.cidr e.peer with _ | t1
    · rw [h1] at h
      exfalso
      have : ∀ (l : List Entry),
          l.foldl
            (fun acc e2 =>
              match acc with
              | none => none
              | some t2 => insF fuel t2 (maskAddr e2.bits e2.cidr) e2.cidr e2.peer)
            none = (none : Option (Option Node)) := by
        intro l
        induction l with
        | nil => rfl
        | cons x xs ihx => rw [List.foldl_cons]; exact ihx
      rw [this es] at h
      exact Option.noConfusion h
    · rw [h1] at h
      have h2 := ihe t1 t h
      rw [List.foldl_cons]
      rw [show insertT t0 e.bits e.cidr e.peer = t1 from insF_eq fuel t0 _ _ _ t1 h1]
      exact h2

theorem buildB_eq (fuel : Nat) (es : List Entry) (t : Option Node)
    (h : buildF fuel es = some t) : buildT es = t :=
  buildF_eq fuel es none t h

theorem entriesF_eq : ∀ (fuel : Nat) (t : Option Node) (L : List Entry),
    entriesF fuel t = some L → entriesOpt t = L := by
  intro fuel
  induction fuel with
  | zero =>
    intro t L h
    simp [entriesF] at h
  | succ fuel ih =>
    intro t L h
    cases t with
    | none =>
      simp only [entriesF] at h
      rw [show entriesOpt none = [] from by simp [entriesOpt], ← Option.some.inj h]
    | some n =>
      cases n with
      | mk b c q z o =>
        simp only [entriesF] at h
        rcases hz : entriesF fuel z with _ | lz
        · rw [hz] at h
          simp at h
        · rcases ho : entriesF fuel o with _ | lo
          · rw [hz, ho] at h
            simp at h
          · rw [hz, ho] at h
            simp only at h
            rw [show entriesOpt (some (.mk b c q z o)) =
              ownEntry b c q ++ (entriesOpt z ++ entriesOpt o) from by rw [entriesOpt]]
            rw [ih z lz hz, ih o lo ho]
            exact Option.some.inj h

theorem walkF_eq : ∀ (fuel : Nat) (t : Option Node) (p : Peer) (L : List (Addr × Nat)),
    walkF fuel t p = some L → walkByPeer t p = L := by
  intro fuel
  induction fuel with
  | zero =>
    intro t p L h
    simp [walkF] at h
  | succ fuel ih =>
    intro t p L h
    cases t with
    | none =>
      simp only [walkF] at h
      rw [show walkByPeer none p = [] from by simp [walkByPeer], ← Option.some.inj h]
    | some n =>
      cases n with
      | mk b c q z o =>
        simp only [walkF] at h
        rcases hz : walkF fuel z p with _ | lz
        · rw [hz] at h
          simp at h
        · rcases ho : walkF fuel o p with _ | lo
          · rw [hz, ho] at h
            simp at h
          · rw [hz, ho] at h
            simp only at h
            rw [show walkByPeer (some (.mk b c q z o)) p =
              (if q = some p then [(b, c)] else []) ++ (walkByPeer z p ++ walkByPeer o p)
              from by rw [walkByPeer]]
            rw [ih z p lz hz, ih o p lo ho]
            exact Option.some.inj h

theorem entriesB_eq (fuel : Nat) (es : List Entry) (L : List Entry)
    (h : entriesB fuel es = some L) : entriesOpt (buildT es) = L := by
  rw [entriesB] at h
  rcases hb : buildF fuel es with _ | t
  · rw [hb] at h
    simp at h
  · rw [hb] at h
    simp only at h
    rw [buildB_eq fuel es t hb]
    exact entriesF_eq fuel t L h

theorem walkB_eq (fuel : Nat) (es : List Entry) (p : Peer) (L : List (Addr × Nat))
    (h : walkB fuel es p = some L) : walkByPeer (buildT es) p = L := by
  rw [walkB] at h
  rcases hb : buildF fuel es with _ | t
  · rw [hb] at h
    simp at h
  · rw [hb] at h
    simp only at h
    rw [buildB_eq fuel es t hb]
    exact walkF_eq fuel t p L h

theorem buildT_snoc (es : List Entry) (e : Entry) :
    buildT (es ++ [e]) = insertT (buildT es) e.bits e.cidr e.peer := by
  rw [buildT, buildT, List.foldl_append, List.foldl_cons, List.foldl_nil]

theorem countP_eq_one_of_nodup_mem {α : Type} [DecidableEq α] :
    ∀ (l : List α) (a : α), l.Nodup → a ∈ l →
      l.countP (fun b2 => decide (b2 = a)) = 1 := by
  intro l
  induction l with
  | nil =>
    intro a _ ha
    simp at ha
  | cons x xs ihx =>
    intro a hnd ha
    rcases List.mem_cons.mp ha with h1 | h1
    · have hnx : ¬ a ∈ xs := by
        rw [h1]
        exact (List.nodup_cons.mp hnd).1
      have hz : xs.countP (fun b2 => decide (b2 = a)) = 0 := by
        rw [List.countP_eq_zero]
        intro b2 hb2
        simp only [decide_eq_true_eq]
        intro hba
        exact hnx (hba ▸ hb2)
      rw [List.countP_cons_of_pos _ _ (by simp [h1]), hz]
    · have hne : ¬ x = a := by
        intro hx
        rw [← hx] at h1
        exact (List.nodup_cons.mp hnd).1 h1
      rw [List.countP_cons_of_neg _ _ (by simp [hne])]
      exact ihx a (List.nodup_cons.mp hnd).2 h1

/-! ## The claims -/

/-- C1: for every sequence of insertions into one family of width w and
every query address of that family, the trie lookup equals the brute-force
scan over all inserted entries selecting the most specific match (with the
later insertion winning on an exact replacement), and likewise equals the
horrible_allowedips reference list lookup built from the same sequence. -/
theorem c1_lookup_equals_bruteforce {w : Nat} (es : List Entry) (key : Addr)
    (hkl : key.length = w) (hes : ∀ e ∈ es, e.bits.length = w ∧ e.cidr ≤ w) :
    lookup (buildT es) key = Option.map (fun r => r.2) (bruteBest es key) ∧
    lookup (buildT es) key = hLookup (hBuild w es) key := by
  constructor
  · rw [lookup, buildT_lookup es key hes]
  · rw [lookup, hLookup, buildT_lookup es key hes, hBuild_lookup es key hkl hes]

theorem c1_witness :
    (ip4 10 1 0 10).length = 32 ∧ (∀ e ∈ c2Entries, e.bits.length = 32 ∧ e.cidr ≤ 32) ∧
    (lookup (buildT c2Entries) (ip4 10 1 0 10) =
        Option.map (fun r => r.2) (bruteBest c2Entries (ip4 10 1 0 10)) ∧
      lookup (buildT c2Entries) (ip4 10 1 0 10) =
        hLookup (hBuild 32 c2Entries) (ip4 10 1 0 10)) :=
  ⟨by decide, by decide,
    @c1_lookup_equals_bruteforce 32 c2Entries (ip4 10 1 0 10) (by decide) (by decide)⟩

/-- C2 counterexample: with the six inserts of the claim the lookup of
10.1.0.10 does not return peer D (4) — 10.1.0.10 lies in 10.1.0.8/29,
owned by peer C (3), exactly as the selftest itself asserts in line 615. -/
theorem c2_counterexample :
    ¬ lookup (buildT c2Entries) (ip4 10 1 0 10) = some 4 := by
  rw [lookup, @buildT_lookup 32 c2Entries (ip4 10 1 0 10) (by decide)]
  decide

/-- C2 (amended): after inserting 10.0.0.0/25 A, 10.0.0.128/25 B,
10.1.0.0/30 A, 10.1.0.4/30 B, 10.1.0.8/29 C, 10.1.0.16/29 D into an empty
v4 table, lookup(10.1.0.10) = C and lookup(10.1.0.20) = D, while
lookup(10.1.0.6) = B and lookup(10.0.0.220) = B as claimed. -/
theorem c2_amended_lookups :
    lookup (buildT c2Entries) (ip4 10 1 0 10) = some 3 ∧
    lookup (buildT c2Entries) (ip4 10 1 0 20) = some 4 ∧
    lookup (buildT c2Entries) (ip4 10 1 0 6) = some 2 ∧
    lookup (buildT c2Entries) (ip4 10 0 0 220) = some 2 := by
  simp only [lookup]
  rw [@buildT_lookup 32 c2Entries (ip4 10 1 0 10) (by decide),
    @buildT_lookup 32 c2Entries (ip4 10 1 0 20) (by decide),
    @buildT_lookup 32 c2Entries (ip4 10 1 0 6) (by decide),
    @buildT_lookup 32 c2Entries (ip4 10 0 0 220) (by decide)]
  decide

/-- C3: inserting a pair whose masked form equals the key of an entry
already present replaces the owner of that node, leaves exactly one node
at that key, and leaves the total node count unchanged. -/
theorem c3_replace {w : Nat} (t : Option Node) (bits : Addr) (cidr : Nat) (pnew q0 : Peer)
    (hwf : WFopt w t)
    (hpresent : (⟨maskAddr bits cidr, cidr, q0⟩ : Entry) ∈ entriesOpt t) :
    countNodes (insertT t bits cidr pnew) = countNodes t ∧
    (nodesList (insertT t bits cidr pnew)).countP
      (fun k => decide (k = (maskAddr bits cidr, cidr))) = 1 ∧
    (⟨maskAddr bits cidr, cidr, pnew⟩ : Entry) ∈ entriesOpt (insertT t bits cidr pnew) ∧
    (∀ q1, (⟨maskAddr bits cidr, cidr, q1⟩ : Entry) ∈ entriesOpt (insertT t bits cidr pnew) →
      q1 = pnew) := by
  obtain ⟨hl0, hw0, _⟩ := entries_facts_opt hwf _ hpresent
  simp only at hl0 hw0
  have hbl : bits.length = w := by rw [← maskAddr_length bits cidr]; exact hl0
  cases t with
  | none => simp [entriesOpt] at hpresent
  | some n =>
    obtain ⟨m1, hm1⟩ := ins_some n (maskAddr bits cidr) cidr pnew
    have hres : insertT (some n) bits cidr pnew = some m1 := hm1
    obtain ⟨hnl, hment⟩ := ins_replace pnew n hwf (maskAddr bits cidr) cidr q0 hpresent m1 hm1
    have hwf2 : WFopt w (insertT (some n) bits cidr pnew) :=
      insertT_wf ⟨bits, cidr, pnew⟩ hbl hw0 (some n) hwf
    refine ⟨?_, ?_, ?_, ?_⟩
    · rw [hres, countNodes_nodesList, countNodes_nodesList, hnl]
    · rw [hres]
      rw [show nodesList (some m1) = nodesList (some n) from hnl]
      exact countP_eq_one_of_nodup_mem (nodesList (some n)) (maskAddr bits cidr, cidr)
        (nodes_nodup n hwf) (entry_key_mem hpresent)
    · rw [hres]
      exact hment
    · intro q1 hq1
      have hment2 : (⟨maskAddr bits cidr, cidr, pnew⟩ : Entry) ∈
          entriesOpt (insertT (some n) bits cidr pnew) := by rw [hres]; exact hment
      have := List.inj_on_of_nodup_map (entries_keys_nodup_opt hwf2) hq1 hment2 rfl
      exact congrArg Entry.peer this

theorem c3_witness :
    (⟨maskAddr (ip4 192 95 5 65) 27, 27, 4⟩ : Entry) ∈ entriesOpt (buildT c3Entries) ∧
    (countNodes (insertT (buildT c3Entries) (ip4 192 95 5 65) 27 3) =
        countNodes (buildT c3Entries) ∧
      (nodesList (insertT (buildT c3Entries) (ip4 192 95 5 65) 27 3)).countP
        (fun k => decide (k = (maskAddr (ip4 192 95 5 65) 27, 27))) = 1 ∧
      (⟨maskAddr (ip4 192 95 5 65) 27, 27, 3⟩ : Entry) ∈
        entriesOpt (insertT (buildT c3Entries) (ip4 192 95 5 65) 27 3) ∧
      (∀ q1, (⟨maskAddr (ip4 192 95 5 65) 27, 27, q1⟩ : Entry) ∈
        entriesOpt (insertT (buildT c3Entries) (ip4 192 95 5 65) 27 3) → q1 = 3)) ∧
    lookup (insertT (buildT c3Entries) (ip4 192 95 5 65) 27 3) (ip4 192 95 5 68) = some 3 :=
  ⟨by
    rw [entriesB_eq 16 c3Entries [⟨maskAddr (ip4 192 95 5 64) 27, 27, 4⟩] (by decide)]
    decide,
    @c3_replace 32 (buildT c3Entries) (ip4 192 95 5 65) 27 3 4
      (WF_buildT c3Entries (by decide))
      (by
        rw [entriesB_eq 16 c3Entries [⟨maskAddr (ip4 192 95 5 64) 27, 27, 4⟩] (by decide)]
        decide),
    by
      rw [show insertT (buildT c3Entries) (ip4 192 95 5 65) 27 3 =
          buildT (c3Entries ++ [(⟨ip4 192 95 5 65, 27, 3⟩ : Entry)]) from
        (buildT_snoc c3Entries ⟨ip4 192 95 5 65, 27, 3⟩).symm]
      rw [lookup, @buildT_lookup 32 (c3Entries ++ [(⟨ip4 192 95 5 65, 27, 3⟩ : Entry)])
        (ip4 192 95 5 68) (by decide)]
      decide⟩

/-- C4: after removing every entry of peer P, no lookup returns P, and an
address whose most specific match was an entry of another peer keeps
exactly the same lookup result. -/
theorem c4_remove {w : Nat} (pP : Peer) (t : Option Node) (key : Addr) (hwf : WFopt w t) :
    (¬ lookup (removeByPeer pP t) key = some pP) ∧
    (∀ c0 u, ¬ u = pP → lookupB t key = some (c0, u) →
      lookup (removeByPeer pP t) key = lookup t key) := by
  obtain ⟨h1, h2⟩ := remove_lookup pP t key hwf
  constructor
  · intro h
    rw [lookup] at h
    rcases hb : lookupB (removeByPeer pP t) key with _ | r
    · rw [hb] at h
      simp at h
    · rw [hb] at h
      simp only [Option.map_some'] at h
      have hp := Option.some.inj h
      refine h1 r.1 ?_
      rw [hb, ← hp]
  · intro c0 u hu hh
    have h3 := h2 c0 u hu hh
    rw [lookup, lookup, h3, hh]

theorem c4_witness :
    (¬ (2 : Peer) = 1 ∧ lookupB (buildT c4Entries) (ip4 10 1 2 3) = some (8, 2)) ∧
    ((¬ lookup (removeByPeer 1 (buildT c4Entries)) (ip4 10 1 2 3) = some 1) ∧
      (∀ c0 u, ¬ u = 1 → lookupB (buildT c4Entries) (ip4 10 1 2 3) = some (c0, u) →
        lookup (removeByPeer 1 (buildT c4Entries)) (ip4 10 1 2 3) =
          lookup (buildT c4Entries) (ip4 10 1 2 3))) ∧
    ¬ lookup (removeByPeer 1 (buildT c4Entries)) (ip4 192 168 0 1) = some 1 :=
  ⟨⟨by decide,
    by
      rw [@buildT_lookup 32 c4Entries (ip4 10 1 2 3) (by decide)]
      decide⟩,
    @c4_remove 32 1 (buildT c4Entries) (ip4 10 1 2 3) (WF_buildT c4Entries (by decide)),
    (@c4_remove 32 1 (buildT c4Entries) (ip4 192 168 0 1)
      (WF_buildT c4Entries (by decide))).1⟩

/-- C5: the walk for peer P visits a pair exactly when the trie has an
entry with that masked prefix and cidr owned by P, and visits no pair
twice — so it never visits a node owned by a different peer and visits
each of the owned pairs exactly once. -/
theorem c5_walk {w : Nat} (t : Option Node) (pP : Peer) (hwf : WFopt w t) :
    (walkByPeer t pP).Nodup ∧
    ∀ b c, ((b, c) ∈ walkByPeer t pP ↔ (⟨b, c, pP⟩ : Entry) ∈ entriesOpt t) :=
  ⟨walk_nodup hwf pP, fun b c => walk_mem pP t b c⟩

theorem c5_witness :
    ((walkByPeer (buildT walkEntries) 1).Nodup ∧
      ∀ b c, ((b, c) ∈ walkByPeer (buildT walkEntries) 1 ↔
        (⟨b, c, 1⟩ : Entry) ∈ entriesOpt (buildT walkEntries))) ∧
    (walkByPeer (buildT walkEntries) 1).length = 3 ∧
    (ip6 0x26075300 0x6d8a6bf8 0xdab1e000 0, 83) ∈ walkByPeer (buildT walkEntries) 1 ∧
    (ip6 0x26075000 0 0 0, 21) ∈ walkByPeer (buildT walkEntries) 1 :=
  ⟨@c5_walk 128 (buildT walkEntries) 1 (WF_buildT walkEntries (by decide)),
    by
      rw [walkB_eq 16 walkEntries 1
        [(ip6 0x26075000 0 0 0, 21), (ip6 0x26075300 0x60006b00 0 0xc05f0543, 128),
         (ip6 0x26075300 0x6d8a6bf8 0xdab1e000 0, 83)] (by decide)]
      decide,
    by
      rw [walkB_eq 16 walkEntries 1
        [(ip6 0x26075000 0 0 0, 21), (ip6 0x26075300 0x60006b00 0 0xc05f0543, 128),
         (ip6 0x26075300 0x6d8a6bf8 0xdab1e000 0, 83)] (by decide)]
      decide,
    by
      rw [walkB_eq 16 walkEntries 1
        [(ip6 0x26075000 0 0 0, 21), (ip6 0x26075300 0x60006b00 0 0xc05f0543, 128),
         (ip6 0x26075300 0x6d8a6bf8 0xdab1e000 0, 83)] (by decide)]
      decide⟩

/-- C6: a cidr-0 entry acts as the default route: its masked prefix is
empty, so whenever no entry of positive cidr matches the address the
lookup returns the default owner. -/
theorem c6_default_route {w : Nat} (t : Option Node) (key : Addr) (f : Peer)
    (hwf : WFopt w t)
    (hdef : (⟨List.replicate w false, 0, f⟩ : Entry) ∈ entriesOpt t)
    (hnone : ∀ e ∈ entriesOpt t, 0 < e.cidr → ¬ key.take e.cidr = e.bits.take e.cidr) :
    lookup t key = some f := by
  have hm : key.take 0 = (List.replicate w false).take 0 := by simp
  obtain ⟨r, hr, _⟩ := lookupB_complete_opt hwf hdef hm
  obtain ⟨b2, hmem2, hmt2⟩ := lookupB_sound_opt hwf hr
  have hc0 : r.1 = 0 := by
    by_contra hne
    exact hnone ⟨b2, r.1, r.2⟩ hmem2 (Nat.pos_of_ne_zero hne) hmt2
  have hequ : (⟨b2, r.1, r.2⟩ : Entry) = ⟨List.replicate w false, 0, f⟩ :=
    entries_match_unique hwf hmem2 hdef hc0 hmt2 hm
  have hpf : r.2 = f := congrArg Entry.peer hequ
  rw [lookup, hr, Option.map_some', hpf]

theorem c6_witness :
    (⟨List.replicate 32 false, 0, 5⟩ : Entry) ∈ entriesOpt (buildT c6Entries) ∧
    (∀ e ∈ entriesOpt (buildT c6Entries), 0 < e.cidr →
      ¬ (ip4 172 16 0 1).take e.cidr = e.bits.take e.cidr) ∧
    lookup (buildT c6Entries) (ip4 172 16 0 1) = some 5 :=
  ⟨by
    rw [entriesB_eq 16 c6Entries
      [⟨List.replicate 32 false, 0, 5⟩, ⟨maskAddr (ip4 10 0 0 0) 8, 8, 1⟩] (by decide)]
    decide,
    by
      rw [entriesB_eq 16 c6Entries
        [⟨List.replicate 32 false, 0, 5⟩, ⟨maskAddr (ip4 10 0 0 0) 8, 8, 1⟩] (by decide)]
      decide,
    @c6_default_route 32 (buildT c6Entries) (ip4 172 16 0 1) 5
      (WF_buildT c6Entries (by decide))
      (by
        rw [entriesB_eq 16 c6Entries
          [⟨List.replicate 32 false, 0, 5⟩, ⟨maskAddr (ip4 10 0 0 0) 8, 8, 1⟩] (by decide)]
        decide)
      (by
        rw [entriesB_eq 16 c6Entries
          [⟨List.replicate 32 false, 0, 5⟩, ⟨maskAddr (ip4 10 0 0 0) 8, 8, 1⟩] (by decide)]
        decide)⟩

/-- C7: inserting an address with host bits set behaves exactly as
inserting its masked form — the two insertions produce identical tries,
because masking is applied before any comparison or storage. -/
theorem c7_mask_before_insert (t : Option Node) (bits : Addr) (cidr : Nat) (p : Peer) :
    insertT t bits cidr p = insertT t (maskAddr bits cidr) cidr p :=
  insertT_masked t bits cidr p

/-- C8: the insert with explicit allocation outcomes either reports
success, or reports out-of-memory leaving the trie exactly in its prior
state, with every subsequent lookup behaving as if the failed insert never
happened; when both allocations succeed it returns exactly the ordinary
insertion result. -/
theorem c8_alloc_failure (a1 a2 : Bool) (t : Option Node) (cand : Addr) (cidr : Nat)
    (p : Peer) :
    ((insE a1 a2 t cand cidr p).1 = false →
      (insE a1 a2 t cand cidr p).2 = t ∧
      ∀ key, lookup ((insE a1 a2 t cand cidr p).2) key = lookup t key) ∧
    insE true true t cand cidr p = (true, ins t cand cidr p) := by
  constructor
  · intro h
    have h2 := insE_fail a1 a2 cand cidr p t h
    exact ⟨h2, fun key => by rw [h2]⟩
  · exact insE_ok cand cidr p t

theorem c8_witness :
    (insE false false none (maskAddr (ip4 10 0 0 0) 8) 8 7).1 = false ∧
    ((insE false false none (maskAddr (ip4 10 0 0 0) 8) 8 7).2 = none ∧
      ∀ key, lookup ((insE false false none (maskAddr (ip4 10 0 0 0) 8) 8 7).2) key =
        lookup (none : Option Node) key) :=
  ⟨by simp [insE],
    (c8_alloc_failure false false none (maskAddr (ip4 10 0 0 0) 8) 8 7).1
      (by simp [insE])⟩

/-- C10: every pair the walk hands to the visit callback carries the
stored masked prefix of the node — all bits beyond the cidr are zero —
rather than the raw bytes given to insert. -/
theorem c10_walk_gives_masked {w : Nat} (t : Option Node) (pP : Peer) (hwf : WFopt w t)
    (b : Addr) (c : Nat) (h : (b, c) ∈ walkByPeer t pP) :
    maskAddr b c = b ∧ b.length = w ∧ c ≤ w := by
  obtain ⟨h1, h2, h3⟩ := walk_masked hwf pP b c h
  exact ⟨h3, h1, h2⟩

theorem c10_witness :
    (ip6 0x26075300 0x6d8a6bf8 0xdab1e000 0, 83) ∈ walkByPeer (buildT walkEntries) 1 ∧
    (maskAddr (ip6 0x26075300 0x6d8a6bf8 0xdab1e000 0) 83 =
        ip6 0x26075300 0x6d8a6bf8 0xdab1e000 0 ∧
      (ip6 0x26075300 0x6d8a6bf8 0xdab1e000 0).length = 128 ∧ 83 ≤ 128) ∧
    ¬ (ip6 0x26075300 0x6d8a6bf8 0xdab1f1df 0xc05f1523, 83) ∈
      walkByPeer (buildT walkEntries) 1 :=
  ⟨by
    rw [walkB_eq 16 walkEntries 1
      [(ip6 0x26075000 0 0 0, 21), (ip6 0x26075300 0x60006b00 0 0xc05f0543, 128),
       (ip6 0x26075300 0x6d8a6bf8 0xdab1e000 0, 83)] (by decide)]
    decide,
    @c10_walk_gives_masked 128 (buildT walkEntries) 1
      (WF_buildT walkEntries (by decide)) (ip6 0x26075300 0x6d8a6bf8 0xdab1e000 0) 83
      (by
        rw [walkB_eq 16 walkEntries 1
          [(ip6 0x26075000 0 0 0, 21), (ip6 0x26075300 0x60006b00 0 0xc05f0543, 128),
           (ip6 0x26075300 0x6d8a6bf8 0xdab1e000 0, 83)] (by decide)]
        decide),
    by
      rw [walkB_eq 16 walkEntries 1
        [(ip6 0x26075000 0 0 0, 21), (ip6 0x26075300 0x60006b00 0 0xc05f0543, 128),
         (ip6 0x26075300 0x6d8a6bf8 0xdab1e000 0, 83)] (by decide)]
      decide⟩

end AIPS
